import Mathlib

set_option maxHeartbeats 1000000

/-!
Verification of the crawl-state core of the Cuely crawler
(`src/core/src/crawler/crawl_db.rs`), shallowly embedded in Lean.

Modelling conventions:
* rocksdb stores, `BTreeMap`s and `HashMap`s are modelled as association
  lists with first-match lookup; the bounded LRU caches of `IdTable` are
  merged with their backing store (a cache entry and the store always agree
  in the source, and a cache miss falls back to the store, so the
  observable mapping is the union of the two).
* `u64` identifiers are modelled as `Nat`: the only arithmetic is an
  increment-only counter starting at 0, so overflow at `2^64` is never
  reached and no modular reduction is needed.
* `f64` weights are modelled as `ℚ`: the program only ever adds `1.0`,
  compares, and takes maxima, so no rounding behaviour is involved.
* the random draw `rng.gen::<f64>()` inside `weighted_sample` is abstracted
  as an oracle stream: the model receives `-ln(u + ε)` (a positive float in
  the source) as an arbitrary rational per stream position and computes the
  priority `(-ln(u + ε)) / (weight + 1)` from it, as source line 254 does.
* storage errors never occur in the in-memory model, so `Result<V>`-valued
  operations return plain values; a Rust `unwrap` panic is modelled by the
  `PanicOr.panicked` constructor, carrying the state at the panic point.
-/

/-- First-match lookup in an association list (models `BTreeMap::get`,
`HashMap::get` and a rocksdb point read). -/
def alookup {α β : Type} [DecidableEq α] (l : List (α × β)) (a : α) : Option β :=
  match l with
  | [] => none
  | (k, v) :: t => if a = k then some v else alookup t a

/-- Insert-or-replace in an association list (models `BTreeMap::insert` /
a rocksdb put, which overwrite any previous value at the key). -/
def ainsert {α β : Type} [DecidableEq α] (l : List (α × β)) (a : α) (b : β) :
    List (α × β) :=
  match l with
  | [] => [(a, b)]
  | (k, v) :: t => if a = k then (a, b) :: t else (k, v) :: ainsert t a b

/-- In-place modification of the value at a key, if present (models
`map.get_mut(k)` followed by a field update). -/
def aupdate {α β : Type} [DecidableEq α] (l : List (α × β)) (a : α) (f : β → β) :
    List (α × β) :=
  match l with
  | [] => []
  | (k, v) :: t => if a = k then (k, f v) :: t else (k, v) :: aupdate t a f

/-- Append `b` to the list stored at key `a`, creating the entry if absent
(models `map.entry(k).or_default().push(v)`). -/
def apush {α β : Type} [DecidableEq α] (l : List (α × List β)) (a : α) (b : β) :
    List (α × List β) :=
  match alookup l a with
  | some bs => ainsert l a (bs ++ [b])
  | none => ainsert l a [b]

/-! ## Weighted reservoir sampler (source lines 217-267) -/

/-- An entry of the sampling heap: `SampledItem { item, priority }`
(source lines 217-220). Priorities are `f64` in the source, modelled
as `ℚ`. -/
structure SampledItem (T : Type) where
  item : T
  priority : ℚ

/-- Extract a maximal-priority element of the heap together with the rest
(semantic model of `BinaryHeap::peek_mut` followed by overwriting the peeked
element: the source's `Ord` instance orders `SampledItem`s by priority,
resolving incomparabilities to `Equal`; on `ℚ` the order is total). -/
def heapPop {T : Type} : List (SampledItem T) → Option (SampledItem T × List (SampledItem T))
  | [] => none
  | x :: xs =>
    match heapPop xs with
    | none => some (x, [])
    | some (m, rest) =>
      if x.priority < m.priority then some (m, x :: rest) else some (x, xs)

/-- One iteration of the sampling loop (source lines 252-264): push while the
heap holds fewer than `numItems` entries, otherwise replace the current
maximum iff the new priority is strictly smaller. -/
def wsStep {T : Type} (numItems : Nat) (h : List (SampledItem T))
    (it : SampledItem T) : List (SampledItem T) :=
  if h.length < numItems then it :: h
  else
    match heapPop h with
    | none => h
    | some (m, rest) => if it.priority < m.priority then it :: rest else h

/-- The sampling loop over the remaining input stream. `negLogU i` stands for
the value `-(rng.gen::<f64>().abs() + f64::EPSILON).ln()` drawn at stream
position `i` (source line 254); the priority is that value divided by
`weight + 1`. -/
def wsGo {T : Type} (numItems : Nat) (negLogU : Nat → ℚ) (i : Nat)
    (h : List (SampledItem T)) : List (T × ℚ) → List (SampledItem T)
  | [] => h
  | (t, w) :: rest =>
      wsGo numItems negLogU (i + 1)
        (wsStep numItems h ⟨t, negLogU i / (w + 1)⟩) rest

/-- `weighted_sample(items, num_items)` (source lines 244-267), with the
random draws supplied by the `negLogU` oracle. Returns the sampled items
(the source returns the heap's arbitrary-order contents; the model returns
the heap list). -/
def weighted_sample {T : Type} (items : List (T × ℚ)) (negLogU : Nat → ℚ)
    (num_items : Nat) : List T :=
  (wsGo num_items negLogU 0 [] items).map SampledItem.item

/-! ## Identity table (source lines 47-215) -/

/-- `IdTable<T>` (source lines 47-57): a persisted bijection between values of
type `T` and densely assigned `u64` identifiers. The two rocksdb stores and
their LRU caches are merged into one association list per direction (see the
module comment); `next_id` is the process-lifetime allocation counter. -/
structure IdTable (T : Type) where
  t2id : List (T × Nat)
  id2t : List (Nat × T)
  next_id : Nat

/-- Model of `rocksdb::DB::destroy` on a store's path: all persisted content
at that path is removed. -/
def destroyStore {α β : Type} (_prior : List (α × β)) : List (α × β) := []

/-- `IdTable::open` (source lines 63-94): the table unconditionally destroys
both persisted stores found at the path (lines 78-79) before opening them,
and starts its counter at 0 (line 87). `priorT2id` / `priorId2t` are whatever
a previous process run had persisted at the path. -/
def IdTable.openTable {T : Type} (priorT2id : List (T × Nat))
    (priorId2t : List (Nat × T)) : IdTable T :=
  { t2id := destroyStore priorT2id
    id2t := destroyStore priorId2t
    next_id := 0 }

/-- `IdTable::id` (source lines 157-193): return the existing id for `item`
(cache, then store), otherwise allocate `next_id`, increment the counter and
record both directions. Returns the id and the updated table. -/
def IdTable.id {T : Type} [DecidableEq T] (t : IdTable T) (item : T) :
    Nat × IdTable T :=
  match alookup t.t2id item with
  | some i => (i, t)
  | none =>
    let i := t.next_id
    (i, { t2id := (item, i) :: t.t2id
          id2t := (i, item) :: t.id2t
          next_id := i + 1 })

/-- `IdTable::value` (source lines 195-214): reverse lookup of an id; a miss
is `none`, not an error. The source's cache refresh does not change the
observable mapping, so the model is read-only. -/
def IdTable.value {T : Type} [DecidableEq T] (t : IdTable T) (i : Nat) :
    Option T :=
  alookup t.id2t i

/-- Loop body of `IdTable::bulk_ids` (source lines 104-145), with
`assignments` playing the role of `batch_assignments`. The batched store
writes (issued at lines 151-152 in the source) are applied immediately here:
no read in the loop can distinguish the two, because the in-loop cache update
(line 142) already publishes every new assignment to later iterations. -/
def bulkGo {T : Type} [DecidableEq T] (t : IdTable T)
    (assignments : List (T × Nat)) : List T → List Nat × IdTable T
  | [] => ([], t)
  | item :: rest =>
    match alookup t.t2id item with
    | some i =>
      let r := bulkGo t assignments rest
      (i :: r.1, r.2)
    | none =>
      match alookup assignments item with
      | some a =>
        let t' : IdTable T :=
          { t2id := (item, a) :: t.t2id
            id2t := (a, item) :: t.id2t
            next_id := t.next_id }
        let r := bulkGo t' assignments rest
        (a :: r.1, r.2)
      | none =>
        let i := t.next_id
        let t' : IdTable T :=
          { t2id := (item, i) :: t.t2id
            id2t := (i, item) :: t.id2t
            next_id := i + 1 }
        let r := bulkGo t' ((item, i) :: assignments) rest
        (i :: r.1, r.2)

/-- `IdTable::bulk_ids` (source lines 96-155): batched form of `id`, one
returned id per input element in input order, starting from an empty
`batch_assignments` map. -/
def IdTable.bulk_ids {T : Type} [DecidableEq T] (t : IdTable T)
    (items : List T) : List Nat × IdTable T :=
  bulkGo t [] items

/-- Well-formedness of an `IdTable`: keys of each direction are unique, every
assigned id is below the counter, ids are never shared between values, and
the backward store inverts the forward store. All operations of the source
preserve this; it is the stated invariant of spec section 3. -/
def IdTable.wfTable {T : Type} [DecidableEq T] (t : IdTable T) : Prop :=
  (t.t2id.map Prod.fst).Nodup ∧
  (t.t2id.map Prod.snd).Nodup ∧
  (t.id2t.map Prod.fst).Nodup ∧
  (∀ p ∈ t.t2id, p.2 < t.next_id ∧ alookup t.id2t p.2 = some p.1) ∧
  (∀ p ∈ t.id2t, p.1 < t.next_id)

instance {T : Type} [DecidableEq T] (t : IdTable T) :
    Decidable t.wfTable := by
  unfold IdTable.wfTable
  infer_instance

/-- The invariant linking `batch_assignments` to the table during
`bulk_ids`: every batch assignment has already been published to the
value-to-id map (by the in-loop cache update, source line 142). Under it the
`assigned_id` branch of the loop is unreachable. -/
def bulkInv {T : Type} [DecidableEq T] (t : IdTable T)
    (asg : List (T × Nat)) : Prop :=
  ∀ k v, alookup asg k = some v → alookup t.t2id k = some v

/-- Driver folding `IdTable::id` over a list of values, returning the
sequence of assigned ids (models a caller invoking `id` repeatedly on the
same table). -/
def seqIds {T : Type} [DecidableEq T] (t : IdTable T) : List T → List Nat × IdTable T
  | [] => ([], t)
  | x :: rest =>
    let r := t.id x
    let r2 := seqIds r.2 rest
    (r.1 :: r2.1, r2.2)

/-! ## Crawl database (source lines 33-45, 269-662) -/

/-- Modelled from the spec: `Url` is an externally-defined value type (a full
URL; crate `url::Url`, not under the provided sources), treated as an opaque,
immutable, serializable, hashable key. We model it as its host together with
the remainder of the URL text. -/
structure Url where
  host : String
  rest : String
deriving DecidableEq

/-- Modelled from the spec: `Domain` is an externally-defined value type
(a host string, defined in the crawler module, not under the provided
sources). -/
abbrev Domain : Type := String

/-- Modelled from the spec: `Domain::from(&Url)` extracts the URL's
host-level grouping key. -/
def Domain.fromUrl (u : Url) : Domain := u.host

/-- `UrlStatus` (source lines 33-39). -/
inductive UrlStatus where
  | Pending
  | Crawling
  | Failed (status_code : Option Nat)
  | Done
deriving DecidableEq

/-- `DomainStatus` (source lines 41-45). -/
inductive DomainStatus where
  | Pending
  | CrawlInProgress
deriving DecidableEq

/-- `UrlState` (source lines 269-272). -/
structure UrlState where
  weight : ℚ
  status : UrlStatus
deriving DecidableEq

/-- `DomainState` (source lines 273-276). -/
structure DomainState where
  weight : ℚ
  status : DomainStatus
deriving DecidableEq

/-- `DomainId` (source lines 278-285): opaque wrapper around a `u64`. -/
structure DomainId where
  val : Nat
deriving DecidableEq

/-- `UrlId` (source lines 287-294): opaque wrapper around a `u64`. -/
structure UrlId where
  val : Nat
deriving DecidableEq

/-- `RedirectDb` (source lines 296-338): a persisted map from a URL to its
observed redirect target. -/
structure RedirectDb where
  inner : List (Url × Url)

/-- `RedirectDb::put` (source lines 314-325): overwrites any prior entry. -/
def RedirectDb.put (r : RedirectDb) (from_ to_ : Url) : RedirectDb :=
  { inner := ainsert r.inner from_ to_ }

/-- `RedirectDb::get` (source lines 327-337): a miss is `none`. -/
def RedirectDb.get (r : RedirectDb) (from_ : Url) : Option Url :=
  alookup r.inner from_

/-- Modelled from the spec: `UrlResponse` (crawler module, not under the
provided sources) — one of `Success{url}`, `Failed{url, status_code}`,
`Redirected{url, new_url}`. -/
inductive UrlResponse where
  | Success (url : Url)
  | Failed (url : Url) (status_code : Option Nat)
  | Redirected (url : Url) (new_url : Url)
deriving DecidableEq

/-- The URL a `UrlResponse` refers to (the original URL in every arm, as used
for grouping at source lines 458-481). -/
def UrlResponse.respUrl : UrlResponse → Url
  | .Success url => url
  | .Failed url _ => url
  | .Redirected url _ => url

/-- Modelled from the spec: `JobResponse` (crawler module, not under the
provided sources) — `{domain, discovered_urls, url_responses}`. -/
structure JobResponse where
  domain : Domain
  discovered_urls : List Url
  url_responses : List UrlResponse

/-- Modelled from the spec: `Job` (crawler module, not under the provided
sources) — `{domain, fetch_sitemap, urls}`; the source builds `urls` as a
`VecDeque` by `push_back`, modelled as a list in push order. -/
structure Job where
  domain : Domain
  fetch_sitemap : Bool
  urls : List Url
deriving DecidableEq

/-- Outcome of an operation that can hit a Rust `unwrap` panic: `panicked s`
carries the mutated state at the moment of the panic (a panic unwinds, so
mutations already applied to `&mut self` remain visible). -/
inductive PanicOr (σ α : Type) where
  | panicked (s : σ)
  | ok (a : α)

/-- `CrawlDb` (source lines 345-354). -/
structure CrawlDb where
  url_ids : IdTable Url
  domain_ids : IdTable Domain
  redirects : RedirectDb
  domain_state : List (DomainId × DomainState)
  urls : List (DomainId × List (UrlId × UrlState))

/-- Insert a key with a default value unless present
(models `map.entry(k).or_insert_with(default)`). -/
def entryOrInsert {α β : Type} [DecidableEq α] (l : List (α × β)) (a : α)
    (b : β) : List (α × β) :=
  match alookup l a with
  | some _ => l
  | none => ainsert l a b

/-- `CrawlDb::insert_seed_urls` (source lines 371-393): for each URL, resolve
or create its domain id and URL id, insert a pending weight-0 domain state
only if absent (`entry().or_insert_with`, lines 376-381), and insert a
pending weight-0 URL state with `BTreeMap::insert` (lines 383-389), which
overwrites any existing state at that URL id. -/
def CrawlDb.insert_seed_urls (db : CrawlDb) (urls : List Url) : CrawlDb :=
  urls.foldl
    (fun db url =>
      let rd := db.domain_ids.id (Domain.fromUrl url)
      let ru := db.url_ids.id url
      let domain_id : DomainId := ⟨rd.1⟩
      let url_id : UrlId := ⟨ru.1⟩
      let urlmap := (alookup db.urls domain_id).getD []
      { db with
          domain_ids := rd.2
          url_ids := ru.2
          domain_state := entryOrInsert db.domain_state domain_id
            { weight := 0, status := DomainStatus.Pending }
          urls := ainsert db.urls domain_id
            (ainsert urlmap url_id
              { weight := 0, status := UrlStatus.Pending }) })
    db

/-- The URLs a batch of grouped responses registers in the URL table
(source lines 487-495): the original URL of every response, plus the target
URL of every redirect. -/
def responseUrls (grouped : List (Domain × List UrlResponse)) : List Url :=
  grouped.flatMap (fun p =>
    p.2.flatMap (fun r =>
      match r with
      | .Success url => [url]
      | .Failed url _ => [url]
      | .Redirected url new_url => [url, new_url]))

/-- Application of one `UrlResponse` inside the per-domain loop of
`update_url_status` (source lines 512-538), threading the url-state map for
the domain, the URL id table and the redirect store. -/
def applyResponse (st : List (UrlId × UrlState) × IdTable Url × RedirectDb)
    (r : UrlResponse) : List (UrlId × UrlState) × IdTable Url × RedirectDb :=
  match r with
  | .Success url =>
    let ru := st.2.1.id url
    let url_id : UrlId := ⟨ru.1⟩
    let m := entryOrInsert st.1 url_id { weight := 0, status := UrlStatus.Pending }
    (aupdate m url_id (fun s => { s with status := UrlStatus.Done }), ru.2, st.2.2)
  | .Failed url status_code =>
    let ru := st.2.1.id url
    let url_id : UrlId := ⟨ru.1⟩
    let m := entryOrInsert st.1 url_id { weight := 0, status := UrlStatus.Pending }
    (aupdate m url_id (fun s => { s with status := UrlStatus.Failed status_code }),
      ru.2, st.2.2)
  | .Redirected url new_url =>
    (st.1, st.2.1, st.2.2.put url new_url)

/-- `CrawlDb::update_url_status` (source lines 452-541): group the responses
by the domain of their original URL (lines 453-484; the source's `HashMap`
iteration order is arbitrary, modelled as first-insertion order), bulk
register the mentioned URLs (lines 486-495) and domains (line 498), then for
each domain resolve its id, insert a default domain state if absent, and
apply each response to the domain's url-state map (lines 500-539). -/
def CrawlDb.update_url_status (db : CrawlDb) (job_responses : List JobResponse) :
    CrawlDb :=
  let grouped : List (Domain × List UrlResponse) :=
    job_responses.foldl
      (fun m res =>
        res.url_responses.foldl
          (fun m r => apush m (Domain.fromUrl r.respUrl) r) m)
      []
  let db1 : CrawlDb :=
    { db with url_ids := (db.url_ids.bulk_ids (responseUrls grouped)).2 }
  let db2 : CrawlDb :=
    { db1 with domain_ids :=
        (db1.domain_ids.bulk_ids (grouped.map Prod.fst)).2 }
  grouped.foldl
    (fun db p =>
      let rd := db.domain_ids.id p.1
      let domain_id : DomainId := ⟨rd.1⟩
      let ds := entryOrInsert db.domain_state domain_id
        { weight := 0, status := DomainStatus.Pending }
      let url_states0 := (alookup db.urls domain_id).getD []
      let r := p.2.foldl applyResponse (url_states0, db.url_ids, db.redirects)
      { db with
          domain_ids := rd.2
          domain_state := ds
          urls := ainsert db.urls domain_id r.1
          url_ids := r.2.1
          redirects := r.2.2 })
    db2

/-- The `(id, weight)` list of a domain-state map's `Pending` entries, in map
order (the filter of source lines 561-567). -/
def pendingDomains (ds : List (DomainId × DomainState)) : List (DomainId × ℚ) :=
  ds.filterMap (fun p =>
    if p.2.status = DomainStatus.Pending then some (p.1, p.2.weight) else none)

/-- `CrawlDb::sample_domains` (source lines 559-580): weighted-sample the
`Pending` domains, then mark every sampled domain `CrawlInProgress` (the
`get_mut(id).unwrap()` at line 575 cannot fail: sampled ids are keys of the
map being iterated). -/
def CrawlDb.sample_domains (db : CrawlDb) (o : Nat → ℚ) (num_jobs : Nat) :
    List DomainId × CrawlDb :=
  let sampled := weighted_sample (pendingDomains db.domain_state) o num_jobs
  let ds := sampled.foldl
    (fun m i => aupdate m i
      (fun st => { st with status := DomainStatus.CrawlInProgress }))
    db.domain_state
  (sampled, { db with domain_state := ds })

/-- The `(id, weight)` list of a url-state map's `Pending` entries, in map
order (the filter of source lines 588-594). -/
def pendingUrls (m : List (UrlId × UrlState)) : List (UrlId × ℚ) :=
  m.filterMap (fun p =>
    if p.2.status = UrlStatus.Pending then some (p.1, p.2.weight) else none)

/-- The recomputed domain weight of `prepare_jobs` (source lines 608-618):
the maximum weight among the map's `Pending` entries, 0 if there are none
(`max_by(partial_cmp or Equal).unwrap_or(0.0)`; total on `ℚ`). -/
def pendingMax (m : List (UrlId × UrlState)) : ℚ :=
  match pendingUrls m with
  | [] => 0
  | w :: ws => (ws.map Prod.snd).foldl max w.2

/-- Resolution of the sampled URL ids back to values (source lines 626-629);
`none` models the `unwrap` panic on an unassigned id. -/
def resolveUrls (t : IdTable Url) : List UrlId → Option (List Url)
  | [] => some []
  | i :: rest =>
    match t.value i.val with
    | none => none
    | some u =>
      match resolveUrls t rest with
      | none => none
      | some us => some (u :: us)

/-- The loop body of `CrawlDb::prepare_jobs` for one domain (source lines
584-631): create the domain's url-state map if absent (line 585), sample its
`Pending` URLs, mark the sampled ones `Crawling` (the `get_mut(id).unwrap()`
at line 602 cannot fail: sampled ids are keys of the map), recompute the
domain weight (panicking if the domain has no state entry, line 606), and
resolve the domain and the sampled URLs into a `Job` (panicking on an
unassigned id, lines 621 and 627). -/
def CrawlDb.prepareJob (db : CrawlDb) (o : Nat → ℚ) (domain_id : DomainId)
    (urls_per_job : Nat) : PanicOr CrawlDb (Job × CrawlDb) :=
  let urls0 := (alookup db.urls domain_id).getD []
  let sampled := weighted_sample (pendingUrls urls0) o urls_per_job
  let urls1 := sampled.foldl
    (fun m i => aupdate m i (fun st => { st with status := UrlStatus.Crawling }))
    urls0
  let db2 : CrawlDb := { db with urls := ainsert db.urls domain_id urls1 }
  match alookup db2.domain_state domain_id with
  | none => PanicOr.panicked db2
  | some dst =>
    let ds3 := ainsert db2.domain_state domain_id
      { dst with weight := pendingMax urls1 }
    let db3 : CrawlDb := { db2 with domain_state := ds3 }
    match db3.domain_ids.value domain_id.val with
    | none => PanicOr.panicked db3
    | some dom =>
      match resolveUrls db3.url_ids sampled with
      | none => PanicOr.panicked db3
      | some us =>
        PanicOr.ok ({ domain := dom, fetch_sitemap := false, urls := us }, db3)

/-- The loop of `CrawlDb::prepare_jobs` over the given domains (source lines
583-634). `o k` is the oracle stream consumed by the `k`-th domain's
sampling pass. -/
def prepareJobsGo (o : Nat → Nat → ℚ) (urls_per_job : Nat) :
    List DomainId → Nat → CrawlDb → PanicOr CrawlDb (List Job × CrawlDb)
  | [], _, db => PanicOr.ok ([], db)
  | d :: rest, idx, db =>
    match db.prepareJob (o idx) d urls_per_job with
    | PanicOr.panicked s => PanicOr.panicked s
    | PanicOr.ok (job, db1) =>
      match prepareJobsGo o urls_per_job rest (idx + 1) db1 with
      | PanicOr.panicked s => PanicOr.panicked s
      | PanicOr.ok (jobs, db2) => PanicOr.ok (job :: jobs, db2)

/-- `CrawlDb::prepare_jobs` (source lines 582-635). -/
def CrawlDb.prepare_jobs (db : CrawlDb) (o : Nat → Nat → ℚ)
    (domains : List DomainId) (urls_per_job : Nat) :
    PanicOr CrawlDb (List Job × CrawlDb) :=
  prepareJobsGo o urls_per_job domains 0 db

/-- The state recorded for `url` in the database: the url-state entry stored
under the url's domain id at the url's id, when both identities are
assigned. -/
def CrawlDb.urlStateOf (db : CrawlDb) (url : Url) : Option UrlState :=
  match alookup db.domain_ids.t2id (Domain.fromUrl url),
      alookup db.url_ids.t2id url with
  | some dn, some un => alookup ((alookup db.urls ⟨dn⟩).getD []) ⟨un⟩
  | _, _ => none

/-- Well-formedness of a `CrawlDb`: both identity tables are well-formed,
state-map keys are unique, and every id appearing as a key in the state maps
is assigned in the corresponding identity table. Every state reachable
through the public operations satisfies this. -/
def CrawlDb.wf (db : CrawlDb) : Prop :=
  db.url_ids.wfTable ∧ db.domain_ids.wfTable ∧
  (db.domain_state.map Prod.fst).Nodup ∧
  (db.urls.map Prod.fst).Nodup ∧
  (∀ p ∈ db.urls,
    (p.2.map Prod.fst).Nodup ∧
    (db.domain_ids.value p.1.val).isSome ∧
    ∀ q ∈ p.2, (db.url_ids.value q.1.val).isSome)

instance (db : CrawlDb) : Decidable db.wf := by
  unfold CrawlDb.wf
  infer_instance

/-- The URL ids the `prepare_jobs` loop body samples for a domain: the
weighted sample over the domain's `Pending` URLs (the `sampled` of source
lines 587-599, expressed against the state the loop body starts from). -/
def CrawlDb.sampledFor (db : CrawlDb) (o : Nat → ℚ) (d : DomainId) (n : Nat) :
    List UrlId :=
  weighted_sample (pendingUrls ((alookup db.urls d).getD [])) o n

/-- Marking a set of URL ids `Crawling` in a url-state map (the loop of
source lines 601-604). -/
def markCrawling (sel : List UrlId) (m : List (UrlId × UrlState)) :
    List (UrlId × UrlState) :=
  sel.foldl
    (fun m i => aupdate m i (fun st => { st with status := UrlStatus.Crawling }))
    m

/-- `CrawlDb::open` (source lines 357-369): opens the two identity tables
(each destroying its prior persisted content) and the redirect store (whose
open is non-destructive, source lines 301-312), with empty in-memory state
maps. -/
def CrawlDb.openDb (pu : List (Url × Nat)) (pu2 : List (Nat × Url))
    (pd : List (Domain × Nat)) (pd2 : List (Nat × Domain))
    (pr : List (Url × Url)) : CrawlDb :=
  { url_ids := IdTable.openTable pu pu2
    domain_ids := IdTable.openTable pd pd2
    redirects := { inner := pr }
    domain_state := []
    urls := [] }

/-- Concrete URLs and databases used to witness the claims at executable
inputs. -/
def wUrlA : Url := { host := "a.com", rest := "/1" }

def wUrlB : Url := { host := "b.com", rest := "/2" }

/-- A crawl database freshly opened and seeded with two URLs on two distinct
domains. -/
def wDb2 : CrawlDb :=
  (CrawlDb.openDb [] [] [] [] []).insert_seed_urls [wUrlA, wUrlB]

/-- The seeded database after a `Success` response for `wUrlA` (its state is
`Done`). -/
def cxDb : CrawlDb :=
  wDb2.update_url_status
    [{ domain := "a.com", discovered_urls := []
       url_responses := [UrlResponse.Success wUrlA] }]

theorem alookup_nil {α β : Type} [DecidableEq α] (a : α) :
    alookup ([] : List (α × β)) a = none := rfl

theorem alookup_cons {α β : Type} [DecidableEq α] (k a : α) (v : β) (t : List (α × β)) :
    alookup ((k, v) :: t) a = if a = k then some v else alookup t a := rfl

theorem alookup_ainsert_self {α β : Type} [DecidableEq α]
    (l : List (α × β)) (a : α) (b : β) :
    alookup (ainsert l a b) a = some b := by
  induction l with
  | nil => simp [ainsert, alookup]
  | cons p t ih =>
    obtain ⟨k, v⟩ := p
    by_cases h : a = k
    · simp [ainsert, h, alookup]
    · simp [ainsert, h, alookup, ih]

theorem alookup_ainsert_ne {α β : Type} [DecidableEq α]
    (l : List (α × β)) (a c : α) (b : β) (h : c ≠ a) :
    alookup (ainsert l a b) c = alookup l c := by
  induction l with
  | nil => simp [ainsert, alookup, h]
  | cons p t ih =>
    obtain ⟨k, v⟩ := p
    by_cases hk : a = k
    · subst hk
      simp [ainsert, alookup, h]
    · by_cases hc : c = k
      · simp [ainsert, hk, alookup, hc]
      · simp [ainsert, hk, alookup, hc, ih]

theorem alookup_aupdate_self {α β : Type} [DecidableEq α]
    (l : List (α × β)) (a : α) (f : β → β) :
    alookup (aupdate l a f) a = (alookup l a).map f := by
  induction l with
  | nil => simp [aupdate, alookup]
  | cons p t ih =>
    obtain ⟨k, v⟩ := p
    by_cases h : a = k
    · simp [aupdate, h, alookup]
    · simp [aupdate, h, alookup, ih]

theorem alookup_aupdate_ne {α β : Type} [DecidableEq α]
    (l : List (α × β)) (a c : α) (f : β → β) (h : c ≠ a) :
    alookup (aupdate l a f) c = alookup l c := by
  induction l with
  | nil => simp [aupdate, alookup]
  | cons p t ih =>
    obtain ⟨k, v⟩ := p
    by_cases hk : a = k
    · subst hk
      simp [aupdate, alookup, h]
    · by_cases hc : c = k
      · simp [aupdate, hk, alookup, hc]
      · simp [aupdate, hk, alookup, hc, ih]

theorem aupdate_keys {α β : Type} [DecidableEq α]
    (l : List (α × β)) (a : α) (f : β → β) :
    (aupdate l a f).map Prod.fst = l.map Prod.fst := by
  induction l with
  | nil => simp [aupdate]
  | cons p t ih =>
    obtain ⟨k, v⟩ := p
    by_cases h : a = k
    · simp [aupdate, h]
    · simp [aupdate, h, ih]

theorem alookup_eq_none_of_not_mem_keys {α β : Type} [DecidableEq α]
    {l : List (α × β)} {a : α} (h : a ∉ l.map Prod.fst) :
    alookup l a = none := by
  induction l with
  | nil => rfl
  | cons p t ih =>
    obtain ⟨k, v⟩ := p
    simp only [List.map_cons, List.mem_cons] at h
    push_neg at h
    simp [alookup, h.1, ih h.2]

theorem mem_keys_of_alookup {α β : Type} [DecidableEq α]
    {l : List (α × β)} {a : α} {b : β} (h : alookup l a = some b) :
    a ∈ l.map Prod.fst := by
  induction l with
  | nil => simp [alookup] at h
  | cons p t ih =>
    obtain ⟨k, v⟩ := p
    by_cases hk : a = k
    · simp [hk]
    · simp only [alookup, hk, if_false] at h
      simp [ih h]

theorem mem_of_alookup {α β : Type} [DecidableEq α]
    {l : List (α × β)} {a : α} {b : β} (h : alookup l a = some b) :
    (a, b) ∈ l := by
  induction l with
  | nil => simp [alookup] at h
  | cons p t ih =>
    obtain ⟨k, v⟩ := p
    by_cases hk : a = k
    · simp only [alookup, hk, if_true, Option.some.injEq] at h
      simp [hk, h]
    · simp only [alookup, hk, if_false] at h
      simp [ih h]

theorem alookup_of_mem_nodup {α β : Type} [DecidableEq α]
    {l : List (α × β)} {a : α} {b : β}
    (hnd : (l.map Prod.fst).Nodup) (h : (a, b) ∈ l) :
    alookup l a = some b := by
  induction l with
  | nil => simp at h
  | cons p t ih =>
    obtain ⟨k, v⟩ := p
    simp only [List.map_cons, List.nodup_cons] at hnd
    rcases List.mem_cons.mp h with h1 | h2
    · rw [Prod.mk.injEq] at h1
      obtain ⟨h1a, h1b⟩ := h1
      subst h1a
      subst h1b
      simp [alookup]
    · have hak : a ≠ k := by
        intro hak
        subst hak
        exact hnd.1 (List.mem_map.mpr ⟨(a, b), h2, rfl⟩)
      simp [alookup, hak, ih hnd.2 h2]

theorem heapPop_eq_none {T : Type} (h : List (SampledItem T)) :
    heapPop h = none ↔ h = [] := by
  cases h with
  | nil => simp [heapPop]
  | cons x xs =>
    simp only [heapPop]
    cases hp : heapPop xs with
    | none => simp
    | some p =>
      obtain ⟨m, rest⟩ := p
      by_cases hlt : x.priority < m.priority <;> simp [hlt]

theorem heapPop_perm {T : Type} {h : List (SampledItem T)}
    {m : SampledItem T} {rest : List (SampledItem T)}
    (hp : heapPop h = some (m, rest)) : h.Perm (m :: rest) := by
  induction h generalizing m rest with
  | nil => simp [heapPop] at hp
  | cons x xs ih =>
    simp only [heapPop] at hp
    cases hq : heapPop xs with
    | none =>
      rw [hq] at hp
      simp only [Option.some.injEq, Prod.mk.injEq] at hp
      obtain ⟨h1, h2⟩ := hp
      subst h1
      subst h2
      have : xs = [] := (heapPop_eq_none xs).mp hq
      subst this
      exact List.Perm.refl _
    | some p =>
      obtain ⟨m', rest'⟩ := p
      rw [hq] at hp
      by_cases hlt : x.priority < m'.priority
      · simp only [hlt, if_true, Option.some.injEq, Prod.mk.injEq] at hp
        obtain ⟨h1, h2⟩ := hp
        rw [← h1, ← h2]
        exact ((ih hq).cons x).trans (List.Perm.swap m' x rest')
      · simp only [hlt, if_false, Option.some.injEq, Prod.mk.injEq] at hp
        obtain ⟨h1, h2⟩ := hp
        subst h1
        subst h2
        exact List.Perm.refl _

theorem wsStep_length {T : Type} {k : Nat} {h : List (SampledItem T)}
    (it : SampledItem T) (hh : h.length ≤ k) :
    (wsStep k h it).length = min (h.length + 1) k := by
  unfold wsStep
  by_cases hlt : h.length < k
  · simp only [hlt, if_true, List.length_cons]
    omega
  · have hk : h.length = k := le_antisymm hh (not_lt.mp hlt)
    simp only [hlt, if_false]
    cases hp : heapPop h with
    | none =>
      have hnil : h = [] := (heapPop_eq_none h).mp hp
      subst hnil
      simp only [List.length_nil] at hk
      simp [← hk]
    | some p =>
      obtain ⟨m, r⟩ := p
      have hlen : h.length = r.length + 1 := by
        simpa using (heapPop_perm hp).length_eq
      by_cases hpr : it.priority < m.priority
      · simp only [hpr, if_true, List.length_cons]
        omega
      · simp only [hpr, if_false]
        omega

theorem wsGo_length {T : Type} {k : Nat} {o : Nat → ℚ} (l : List (T × ℚ)) :
    ∀ (i : Nat) (h : List (SampledItem T)), h.length ≤ k →
      (wsGo k o i h l).length = min k (h.length + l.length) := by
  induction l with
  | nil =>
    intro i h hh
    simp only [wsGo, List.length_nil]
    omega
  | cons p rest ih =>
    intro i h hh
    obtain ⟨t, w⟩ := p
    simp only [wsGo]
    have hs := wsStep_length (k := k) (h := h) (⟨t, o i / (w + 1)⟩) hh
    rw [ih _ _ (by omega)]
    rw [hs]
    simp only [List.length_cons]
    omega

theorem wsStep_items_le {T : Type} (k : Nat) (h : List (SampledItem T))
    (it : SampledItem T) :
    ((wsStep k h it).map SampledItem.item : Multiset T) ≤
      it.item ::ₘ (h.map SampledItem.item : Multiset T) := by
  unfold wsStep
  by_cases hlt : h.length < k
  · simp [hlt]
  · simp only [hlt, if_false]
    cases hp : heapPop h with
    | none => exact Multiset.le_cons_self _ _
    | some p =>
      obtain ⟨m, r⟩ := p
      have hperm : (h.map SampledItem.item).Perm
          ((m :: r).map SampledItem.item) := (heapPop_perm hp).map _
      have hco : (h.map SampledItem.item : Multiset T) =
          m.item ::ₘ (r.map SampledItem.item : Multiset T) := by
        exact_mod_cast Multiset.coe_eq_coe.mpr hperm
      by_cases hpr : it.priority < m.priority
      · simp only [hpr, if_true, List.map_cons]
        rw [hco]
        exact Multiset.cons_le_cons _ (Multiset.le_cons_self _ _)
      · simp only [hpr, if_false]
        exact Multiset.le_cons_self _ _

theorem wsGo_items_le {T : Type} {k : Nat} {o : Nat → ℚ} (l : List (T × ℚ)) :
    ∀ (i : Nat) (h : List (SampledItem T)),
      ((wsGo k o i h l).map SampledItem.item : Multiset T) ≤
        (h.map SampledItem.item : Multiset T) + (l.map Prod.fst : Multiset T) := by
  induction l with
  | nil =>
    intro i h
    simp [wsGo]
  | cons p rest ih =>
    intro i h
    obtain ⟨t, w⟩ := p
    simp only [wsGo]
    refine le_trans (ih _ _) ?_
    have hstep := wsStep_items_le k h (⟨t, o i / (w + 1)⟩ : SampledItem T)
    calc ((wsStep k h ⟨t, o i / (w + 1)⟩).map SampledItem.item : Multiset T)
          + (rest.map Prod.fst : Multiset T)
        ≤ (t ::ₘ (h.map SampledItem.item : Multiset T))
          + (rest.map Prod.fst : Multiset T) :=
          add_le_add_right hstep _
      _ = (h.map SampledItem.item : Multiset T)
          + (((t, w) :: rest).map Prod.fst : Multiset T) := by
          rw [List.map_cons, ← Multiset.cons_coe, Multiset.cons_add,
            Multiset.add_cons]

theorem wsGo_items_perm_of_le {T : Type} {k : Nat} {o : Nat → ℚ}
    (l : List (T × ℚ)) :
    ∀ (i : Nat) (h : List (SampledItem T)), h.length + l.length ≤ k →
      ((wsGo k o i h l).map SampledItem.item).Perm
        (h.map SampledItem.item ++ l.map Prod.fst) := by
  induction l with
  | nil =>
    intro i h _
    simp [wsGo]
  | cons p rest ih =>
    intro i h hle
    obtain ⟨t, w⟩ := p
    simp only [List.length_cons] at hle
    have hlt : h.length < k := by omega
    simp only [wsGo, wsStep, hlt, if_true]
    have := ih (i + 1) (⟨t, o i / (w + 1)⟩ :: h) (by simp; omega)
    simp only [List.map_cons] at this ⊢
    exact this.trans List.perm_middle.symm

theorem weighted_sample_length {T : Type} (items : List (T × ℚ))
    (o : Nat → ℚ) (k : Nat) :
    (weighted_sample items o k).length = min k items.length := by
  unfold weighted_sample
  rw [List.length_map, wsGo_length items 0 [] (by simp)]
  simp

theorem weighted_sample_le {T : Type} (items : List (T × ℚ))
    (o : Nat → ℚ) (k : Nat) :
    ((weighted_sample items o k : List T) : Multiset T) ≤
      (items.map Prod.fst : Multiset T) := by
  unfold weighted_sample
  have := wsGo_items_le (k := k) (o := o) items 0 []
  simpa using this

theorem weighted_sample_mem {T : Type} {items : List (T × ℚ)}
    {o : Nat → ℚ} {k : Nat} {x : T} (hx : x ∈ weighted_sample items o k) :
    x ∈ items.map Prod.fst := by
  have hle := weighted_sample_le items o k
  have : x ∈ ((weighted_sample items o k : List T) : Multiset T) := by
    simpa using hx
  simpa using Multiset.mem_of_le hle this

theorem weighted_sample_perm_of_le {T : Type} (items : List (T × ℚ))
    (o : Nat → ℚ) {k : Nat} (hk : items.length ≤ k) :
    (weighted_sample items o k).Perm (items.map Prod.fst) := by
  unfold weighted_sample
  have := wsGo_items_perm_of_le (k := k) (o := o) items 0 [] (by simpa using hk)
  simpa using this

theorem weighted_sample_nodup {T : Type} {items : List (T × ℚ)}
    {o : Nat → ℚ} {k : Nat} (hnd : (items.map Prod.fst).Nodup) :
    (weighted_sample items o k).Nodup := by
  have hle := weighted_sample_le items o k
  have hmn : Multiset.Nodup ((items.map Prod.fst : List T) : Multiset T) := by
    simpa using hnd
  have : Multiset.Nodup ((weighted_sample items o k : List T) : Multiset T) :=
    Multiset.nodup_of_le hle hmn
  simpa using this

theorem weighted_sample_nil {T : Type} (o : Nat → ℚ) (k : Nat) :
    weighted_sample ([] : List (T × ℚ)) o k = [] := rfl

theorem weighted_sample_zero {T : Type} (items : List (T × ℚ)) (o : Nat → ℚ) :
    weighted_sample items o 0 = [] := by
  have := weighted_sample_length items o 0
  simpa using List.length_eq_zero.mp (by simpa using this)

theorem alookup_eq_none_iff {α β : Type} [DecidableEq α]
    (l : List (α × β)) (a : α) :
    alookup l a = none ↔ a ∉ l.map Prod.fst := by
  constructor
  · intro h hmem
    induction l with
    | nil => simp at hmem
    | cons q t ih =>
      obtain ⟨k', v'⟩ := q
      rw [alookup_cons] at h
      by_cases hk : a = k'
      · simp [hk] at h
      · simp only [hk, if_false] at h
        simp only [List.map_cons, List.mem_cons, hk, false_or] at hmem
        exact ih h hmem
  · exact alookup_eq_none_of_not_mem_keys

theorem IdTable.id_of_lookup {T : Type} [DecidableEq T] {t : IdTable T}
    {x : T} {i : Nat} (h : alookup t.t2id x = some i) : t.id x = (i, t) := by
  unfold IdTable.id
  rw [h]

theorem IdTable.id_extends {T : Type} [DecidableEq T] (t : IdTable T)
    (x y : T) (i : Nat) (h : alookup t.t2id y = some i) :
    alookup (t.id x).2.t2id y = some i := by
  unfold IdTable.id
  cases hx : alookup t.t2id x with
  | some j => simpa using h
  | none =>
    simp only
    rw [alookup_cons]
    by_cases hxy : y = x
    · subst hxy
      rw [h] at hx
      cases hx
    · simp [hxy, h]

theorem IdTable.id_wf {T : Type} [DecidableEq T] {t : IdTable T} (x : T)
    (hwf : t.wfTable) : (t.id x).2.wfTable := by
  obtain ⟨h1, h2, h3, h4, h5⟩ := hwf
  unfold IdTable.id
  cases hx : alookup t.t2id x with
  | some i => exact ⟨h1, h2, h3, h4, h5⟩
  | none =>
    simp only
    refine ⟨?_, ?_, ?_, ?_, ?_⟩
    · simp only [List.map_cons, List.nodup_cons]
      exact ⟨(alookup_eq_none_iff _ _).mp hx, h1⟩
    · simp only [List.map_cons, List.nodup_cons]
      constructor
      · intro hmem
        rcases List.mem_map.mp hmem with ⟨p, hp, hsnd⟩
        exact absurd ((h4 p hp).1) (by omega)
      · exact h2
    · simp only [List.map_cons, List.nodup_cons]
      constructor
      · intro hmem
        rcases List.mem_map.mp hmem with ⟨p, hp, hfst⟩
        exact absurd (h5 p hp) (by omega)
      · exact h3
    · intro p hp
      rcases List.mem_cons.mp hp with h1' | h2'
      · subst h1'
        refine ⟨Nat.lt_succ_self _, ?_⟩
        simp [alookup_cons]
      · obtain ⟨hb, hfb⟩ := h4 p h2'
        refine ⟨Nat.lt_succ_of_lt hb, ?_⟩
        rw [alookup_cons]
        have : p.2 ≠ t.next_id := by omega
        simp [this, hfb]
    · intro p hp
      rcases List.mem_cons.mp hp with h1' | h2'
      · subst h1'
        simp
      · exact Nat.lt_succ_of_lt (h5 p h2')

theorem IdTable.id_value_eq {T : Type} [DecidableEq T] {t : IdTable T} (x : T)
    (hwf : t.wfTable) : (t.id x).2.value (t.id x).1 = some x := by
  obtain ⟨_, _, _, h4, _⟩ := hwf
  unfold IdTable.id IdTable.value
  cases hx : alookup t.t2id x with
  | some i => exact (h4 (x, i) (mem_of_alookup hx)).2
  | none => simp [alookup_cons]

theorem bulkInv_nil {T : Type} [DecidableEq T] (t : IdTable T) :
    bulkInv t [] := by
  intro k v h
  simp [alookup] at h

theorem bulkGo_cons_found {T : Type} [DecidableEq T] (t : IdTable T)
    (asg : List (T × Nat)) (item : T) (rest : List T) (i : Nat)
    (h : alookup t.t2id item = some i) :
    bulkGo t asg (item :: rest) =
      (i :: (bulkGo t asg rest).1, (bulkGo t asg rest).2) := by
  simp only [bulkGo]
  rw [h]

theorem bulkGo_cons_fresh {T : Type} [DecidableEq T] (t : IdTable T)
    (asg : List (T × Nat)) (item : T) (rest : List T)
    (h1 : alookup t.t2id item = none) (h2 : alookup asg item = none) :
    bulkGo t asg (item :: rest) =
      (t.next_id ::
        (bulkGo
          { t2id := (item, t.next_id) :: t.t2id
            id2t := (t.next_id, item) :: t.id2t
            next_id := t.next_id + 1 } ((item, t.next_id) :: asg) rest).1,
        (bulkGo
          { t2id := (item, t.next_id) :: t.t2id
            id2t := (t.next_id, item) :: t.id2t
            next_id := t.next_id + 1 } ((item, t.next_id) :: asg) rest).2) := by
  simp only [bulkGo]
  rw [h1, h2]

theorem bulkGo_cons_asg {T : Type} [DecidableEq T] (t : IdTable T)
    (asg : List (T × Nat)) (item : T) (rest : List T) (a : Nat)
    (h1 : alookup t.t2id item = none) (h2 : alookup asg item = some a) :
    bulkGo t asg (item :: rest) =
      (a ::
        (bulkGo
          { t2id := (item, a) :: t.t2id
            id2t := (a, item) :: t.id2t
            next_id := t.next_id } asg rest).1,
        (bulkGo
          { t2id := (item, a) :: t.t2id
            id2t := (a, item) :: t.id2t
            next_id := t.next_id } asg rest).2) := by
  simp only [bulkGo]
  rw [h1, h2]

theorem bulkGo_length {T : Type} [DecidableEq T] (xs : List T) :
    ∀ (t : IdTable T) (asg : List (T × Nat)),
      (bulkGo t asg xs).1.length = xs.length := by
  induction xs with
  | nil => intro t asg; rfl
  | cons item rest ih =>
    intro t asg
    cases hit : alookup t.t2id item with
    | some i => rw [bulkGo_cons_found t asg item rest i hit]; simp [ih]
    | none =>
      cases hasg : alookup asg item with
      | some a => rw [bulkGo_cons_asg t asg item rest a hit hasg]; simp [ih]
      | none => rw [bulkGo_cons_fresh t asg item rest hit hasg]; simp [ih]

theorem bulkGo_next_id_le {T : Type} [DecidableEq T] (xs : List T) :
    ∀ (t : IdTable T) (asg : List (T × Nat)),
      t.next_id ≤ (bulkGo t asg xs).2.next_id := by
  induction xs with
  | nil => intro t asg; exact le_refl _
  | cons item rest ih =>
    intro t asg
    cases hit : alookup t.t2id item with
    | some i =>
      rw [bulkGo_cons_found t asg item rest i hit]
      exact ih t asg
    | none =>
      cases hasg : alookup asg item with
      | some a =>
        rw [bulkGo_cons_asg t asg item rest a hit hasg]
        exact ih
          { t2id := (item, a) :: t.t2id
            id2t := (a, item) :: t.id2t
            next_id := t.next_id } asg
      | none =>
        rw [bulkGo_cons_fresh t asg item rest hit hasg]
        exact le_trans (Nat.le_succ _)
          (ih
            { t2id := (item, t.next_id) :: t.t2id
              id2t := (t.next_id, item) :: t.id2t
              next_id := t.next_id + 1 } ((item, t.next_id) :: asg))

theorem bulkGo_preserves_lookup {T : Type} [DecidableEq T] (xs : List T) :
    ∀ (t : IdTable T) (asg : List (T × Nat)) (x : T) (i : Nat),
      alookup t.t2id x = some i →
      alookup (bulkGo t asg xs).2.t2id x = some i := by
  induction xs with
  | nil => intro t asg x i h; exact h
  | cons item rest ih =>
    intro t asg x i h
    cases hit : alookup t.t2id item with
    | some j =>
      rw [bulkGo_cons_found t asg item rest j hit]
      exact ih t asg x i h
    | none =>
      have hne : x ≠ item := by
        intro he
        subst he
        rw [h] at hit
        cases hit
      cases hasg : alookup asg item with
      | some a =>
        rw [bulkGo_cons_asg t asg item rest a hit hasg]
        refine ih _ _ x i ?_
        rw [alookup_cons]
        simp [hne, h]
      | none =>
        rw [bulkGo_cons_fresh t asg item rest hit hasg]
        refine ih _ _ x i ?_
        rw [alookup_cons]
        simp [hne, h]

theorem bulkGo_mem_lookup {T : Type} [DecidableEq T] (xs : List T) :
    ∀ (t : IdTable T) (asg : List (T × Nat)) (x : T), x ∈ xs →
      ∃ i, alookup (bulkGo t asg xs).2.t2id x = some i := by
  induction xs with
  | nil => intro t asg x h; simp at h
  | cons item rest ih =>
    intro t asg x hx
    cases hit : alookup t.t2id item with
    | some j =>
      rw [bulkGo_cons_found t asg item rest j hit]
      rcases List.mem_cons.mp hx with h1 | h2
      · subst h1
        exact ⟨j, bulkGo_preserves_lookup rest t asg x j hit⟩
      · exact ih t asg x h2
    | none =>
      cases hasg : alookup asg item with
      | some a =>
        rw [bulkGo_cons_asg t asg item rest a hit hasg]
        rcases List.mem_cons.mp hx with h1 | h2
        · subst h1
          refine ⟨a, bulkGo_preserves_lookup rest _ asg x a ?_⟩
          simp [alookup_cons]
        · exact ih _ _ x h2
      | none =>
        rw [bulkGo_cons_fresh t asg item rest hit hasg]
        rcases List.mem_cons.mp hx with h1 | h2
        · subst h1
          refine ⟨t.next_id, bulkGo_preserves_lookup rest _ _ x t.next_id ?_⟩
          simp [alookup_cons]
        · exact ih _ _ x h2

theorem bulkGo_lookup_cases {T : Type} [DecidableEq T] (xs : List T) :
    ∀ (t : IdTable T) (asg : List (T × Nat)) (x : T) (i : Nat),
      bulkInv t asg →
      alookup (bulkGo t asg xs).2.t2id x = some i →
      alookup t.t2id x = some i ∨
        (alookup t.t2id x = none ∧ t.next_id ≤ i) := by
  induction xs with
  | nil =>
    intro t asg x i _ h
    exact Or.inl h
  | cons item rest ih =>
    intro t asg x i hinv h
    cases hit : alookup t.t2id item with
    | some j =>
      rw [bulkGo_cons_found t asg item rest j hit] at h
      exact ih t asg x i hinv h
    | none =>
      cases hasg : alookup asg item with
      | some a =>
        have := hinv item a hasg
        rw [hit] at this
        cases this
      | none =>
        rw [bulkGo_cons_fresh t asg item rest hit hasg] at h
        have hinv' : bulkInv
            { t2id := (item, t.next_id) :: t.t2id
              id2t := (t.next_id, item) :: t.id2t
              next_id := t.next_id + 1 } ((item, t.next_id) :: asg) := by
          intro k v hk
          rw [alookup_cons] at hk ⊢
          by_cases hki : k = item
          · simpa [hki] using hk
          · simp only [hki, if_false] at hk ⊢
            exact hinv k v hk
        rcases ih _ _ x i hinv' h with h1 | h2
        · rw [alookup_cons] at h1
          by_cases hxi : x = item
          · simp only [hxi, if_true, Option.some.injEq] at h1
            subst hxi
            exact Or.inr ⟨hit, by omega⟩
          · simp only [hxi, if_false] at h1
            exact Or.inl h1
        · obtain ⟨hn, hge⟩ := h2
          rw [alookup_cons] at hn
          by_cases hxi : x = item
          · simp [hxi] at hn
          · simp only [hxi, if_false] at hn
            exact Or.inr ⟨hn, by simp only at hge; omega⟩

theorem freshInsert_wf {T : Type} [DecidableEq T] {t : IdTable T} {x : T}
    (hwf : t.wfTable) (hx : alookup t.t2id x = none) :
    IdTable.wfTable
      { t2id := (x, t.next_id) :: t.t2id
        id2t := (t.next_id, x) :: t.id2t
        next_id := t.next_id + 1 } := by
  obtain ⟨h1, h2, h3, h4, h5⟩ := hwf
  refine ⟨?_, ?_, ?_, ?_, ?_⟩
  · simp only [List.map_cons, List.nodup_cons]
    exact ⟨(alookup_eq_none_iff _ _).mp hx, h1⟩
  · simp only [List.map_cons, List.nodup_cons]
    constructor
    · intro hmem
      rcases List.mem_map.mp hmem with ⟨p, hp, hsnd⟩
      exact absurd ((h4 p hp).1) (by omega)
    · exact h2
  · simp only [List.map_cons, List.nodup_cons]
    constructor
    · intro hmem
      rcases List.mem_map.mp hmem with ⟨p, hp, hfst⟩
      exact absurd (h5 p hp) (by omega)
    · exact h3
  · intro p hp
    rcases List.mem_cons.mp hp with h1' | h2'
    · subst h1'
      refine ⟨Nat.lt_succ_self _, ?_⟩
      simp [alookup_cons]
    · obtain ⟨hb, hfb⟩ := h4 p h2'
      refine ⟨Nat.lt_succ_of_lt hb, ?_⟩
      rw [alookup_cons]
      have : p.2 ≠ t.next_id := by omega
      simp [this, hfb]
  · intro p hp
    rcases List.mem_cons.mp hp with h1' | h2'
    · subst h1'
      simp
    · exact Nat.lt_succ_of_lt (h5 p h2')

theorem freshInsert_bulkInv {T : Type} [DecidableEq T] {t : IdTable T}
    {asg : List (T × Nat)} {x : T} (hinv : bulkInv t asg) :
    bulkInv
      { t2id := (x, t.next_id) :: t.t2id
        id2t := (t.next_id, x) :: t.id2t
        next_id := t.next_id + 1 } ((x, t.next_id) :: asg) := by
  intro k v hk
  rw [alookup_cons] at hk ⊢
  by_cases hki : k = x
  · simpa [hki] using hk
  · simp only [hki, if_false] at hk ⊢
    exact hinv k v hk

theorem bulkGo_wf {T : Type} [DecidableEq T] (xs : List T) :
    ∀ (t : IdTable T) (asg : List (T × Nat)),
      bulkInv t asg → t.wfTable → (bulkGo t asg xs).2.wfTable := by
  induction xs with
  | nil => intro t asg _ hwf; exact hwf
  | cons item rest ih =>
    intro t asg hinv hwf
    cases hit : alookup t.t2id item with
    | some j =>
      rw [bulkGo_cons_found t asg item rest j hit]
      exact ih t asg hinv hwf
    | none =>
      cases hasg : alookup asg item with
      | some a =>
        have := hinv item a hasg
        rw [hit] at this
        cases this
      | none =>
        rw [bulkGo_cons_fresh t asg item rest hit hasg]
        exact ih _ _ (freshInsert_bulkInv hinv) (freshInsert_wf hwf hit)

theorem bulkGo_forall2 {T : Type} [DecidableEq T] (xs : List T) :
    ∀ (t : IdTable T) (asg : List (T × Nat)), bulkInv t asg →
      List.Forall₂ (fun x i => alookup (bulkGo t asg xs).2.t2id x = some i)
        xs (bulkGo t asg xs).1 := by
  induction xs with
  | nil => intro t asg _; exact List.Forall₂.nil
  | cons item rest ih =>
    intro t asg hinv
    cases hit : alookup t.t2id item with
    | some j =>
      rw [bulkGo_cons_found t asg item rest j hit]
      exact List.Forall₂.cons
        (bulkGo_preserves_lookup rest t asg item j hit) (ih t asg hinv)
    | none =>
      cases hasg : alookup asg item with
      | some a =>
        have := hinv item a hasg
        rw [hit] at this
        cases this
      | none =>
        rw [bulkGo_cons_fresh t asg item rest hit hasg]
        refine List.Forall₂.cons ?_ (ih _ _ (freshInsert_bulkInv hinv))
        refine bulkGo_preserves_lookup rest _ _ item t.next_id ?_
        simp [alookup_cons]

theorem seqIds_fresh {T : Type} [DecidableEq T] (xs : List T) :
    ∀ (t : IdTable T), (∀ x ∈ xs, alookup t.t2id x = none) → xs.Nodup →
      (seqIds t xs).1 = List.range' t.next_id xs.length := by
  induction xs with
  | nil => intro t _ _; rfl
  | cons x rest ih =>
    intro t hfresh hnd
    have hx : alookup t.t2id x = none := hfresh x (List.mem_cons_self x rest)
    simp only [seqIds, IdTable.id, hx, List.length_cons]
    have hnd' := (List.nodup_cons.mp hnd)
    have hfresh' : ∀ y ∈ rest,
        alookup (((x, t.next_id) :: t.t2id : List (T × Nat))) y = none := by
      intro y hy
      rw [alookup_cons]
      have hyx : y ≠ x := fun he => hnd'.1 (he ▸ hy)
      simp [hyx, hfresh y (List.mem_cons_of_mem x hy)]
    rw [show List.range' t.next_id (rest.length + 1)
        = t.next_id :: List.range' (t.next_id + 1) rest.length from rfl]
    simp only [List.cons.injEq, true_and]
    have := ih { t2id := (x, t.next_id) :: t.t2id
                 id2t := (t.next_id, x) :: t.id2t
                 next_id := t.next_id + 1 } hfresh' hnd'.2
    simpa using this

theorem mem_ainsert {α β : Type} [DecidableEq α]
    {l : List (α × β)} {a : α} {b : β} {p : α × β}
    (hnd : (l.map Prod.fst).Nodup) (h : p ∈ ainsert l a b) :
    p = (a, b) ∨ (p ∈ l ∧ p.1 ≠ a) := by
  induction l with
  | nil =>
    simp only [ainsert, List.mem_singleton] at h
    exact Or.inl h
  | cons q t ih =>
    obtain ⟨k, v⟩ := q
    simp only [List.map_cons, List.nodup_cons] at hnd
    by_cases hk : a = k
    · subst hk
      simp only [ainsert, if_true] at h
      rcases List.mem_cons.mp h with h1 | h2
      · exact Or.inl h1
      · by_cases hpa : p.1 = a
        · exact absurd (hpa ▸ List.mem_map.mpr ⟨p, h2, rfl⟩) hnd.1
        · exact Or.inr ⟨List.mem_cons_of_mem _ h2, hpa⟩
    · simp only [ainsert, hk, if_false] at h
      rcases List.mem_cons.mp h with h1 | h2
      · subst h1
        refine Or.inr ⟨List.mem_cons_self _ _, ?_⟩
        intro he
        exact hk he.symm
      · rcases ih hnd.2 h2 with h3 | h4
        · exact Or.inl h3
        · exact Or.inr ⟨List.mem_cons_of_mem _ h4.1, h4.2⟩

theorem ainsert_keys_nodup {α β : Type} [DecidableEq α]
    {l : List (α × β)} (a : α) (b : β) (hnd : (l.map Prod.fst).Nodup) :
    ((ainsert l a b).map Prod.fst).Nodup := by
  induction l with
  | nil => simp [ainsert]
  | cons q t ih =>
    obtain ⟨k, v⟩ := q
    simp only [List.map_cons, List.nodup_cons] at hnd
    by_cases hk : a = k
    · subst hk
      simp only [ainsert, if_true, List.map_cons, List.nodup_cons]
      exact ⟨hnd.1, hnd.2⟩
    · simp only [ainsert, hk, if_false, List.map_cons, List.nodup_cons]
      refine ⟨?_, ih hnd.2⟩
      intro hmem
      rcases List.mem_map.mp hmem with ⟨p, hp, hfst⟩
      rcases mem_ainsert hnd.2 hp with h1 | h2
      · subst h1
        exact hk (by simpa using hfst)
      · exact hnd.1 (hfst ▸ List.mem_map.mpr ⟨p, h2.1, rfl⟩)

theorem alookup_entryOrInsert_self {α β : Type} [DecidableEq α]
    (l : List (α × β)) (a : α) (b : β) :
    alookup (entryOrInsert l a b) a = some ((alookup l a).getD b) := by
  unfold entryOrInsert
  cases h : alookup l a with
  | some c => simpa using h
  | none => simp [alookup_ainsert_self]

theorem alookup_entryOrInsert_ne {α β : Type} [DecidableEq α]
    (l : List (α × β)) (a c : α) (b : β) (h : c ≠ a) :
    alookup (entryOrInsert l a b) c = alookup l c := by
  unfold entryOrInsert
  cases alookup l a with
  | some d => rfl
  | none => exact alookup_ainsert_ne l a c b h

theorem entryOrInsert_keys_nodup {α β : Type} [DecidableEq α]
    {l : List (α × β)} (a : α) (b : β) (hnd : (l.map Prod.fst).Nodup) :
    ((entryOrInsert l a b).map Prod.fst).Nodup := by
  unfold entryOrInsert
  cases alookup l a with
  | some c => exact hnd
  | none => exact ainsert_keys_nodup a b hnd

theorem foldl_aupdate_keys {α β : Type} [DecidableEq α] (f : β → β)
    (l : List α) :
    ∀ (m : List (α × β)),
      ((l.foldl (fun m i => aupdate m i f) m).map Prod.fst) = m.map Prod.fst := by
  induction l with
  | nil => intro m; rfl
  | cons a t ih =>
    intro m
    simp only [List.foldl_cons]
    rw [ih (aupdate m a f), aupdate_keys]

theorem foldl_aupdate_lookup_not_mem {α β : Type} [DecidableEq α] (f : β → β)
    (l : List α) :
    ∀ (m : List (α × β)) (a : α), a ∉ l →
      alookup (l.foldl (fun m i => aupdate m i f) m) a = alookup m a := by
  induction l with
  | nil => intro m a _; rfl
  | cons c t ih =>
    intro m a ha
    simp only [List.mem_cons] at ha
    push_neg at ha
    simp only [List.foldl_cons]
    rw [ih _ a ha.2, alookup_aupdate_ne _ _ _ _ ha.1]

theorem foldl_aupdate_lookup_mem {α β : Type} [DecidableEq α] (f : β → β)
    (hf : ∀ b, f (f b) = f b) (l : List α) :
    ∀ (m : List (α × β)) (a : α) (b : β), alookup m a = some b → a ∈ l →
      alookup (l.foldl (fun m i => aupdate m i f) m) a = some (f b) := by
  induction l with
  | nil =>
    intro m a b _ ha
    simp at ha
  | cons c t ih =>
    intro m a b hb ha
    simp only [List.foldl_cons]
    by_cases hac : a = c
    · subst hac
      have hup : alookup (aupdate m a f) a = some (f b) := by
        rw [alookup_aupdate_self, hb]
        rfl
      by_cases hat : a ∈ t
      · rw [ih _ a (f b) hup hat, hf]
      · rw [foldl_aupdate_lookup_not_mem f t _ a hat, hup]
    · rcases List.mem_cons.mp ha with h1 | h2
      · exact absurd h1 hac
      · refine ih _ a b ?_ h2
        rw [alookup_aupdate_ne _ _ _ _ hac, hb]

theorem foldl_max_mem (ws : List ℚ) : ∀ (w : ℚ), ws.foldl max w ∈ w :: ws := by
  induction ws with
  | nil => intro w; simp
  | cons v t ih =>
    intro w
    simp only [List.foldl_cons]
    rcases List.mem_cons.mp (ih (max w v)) with h1 | h2
    · rcases max_choice w v with hm | hm
      · exact List.mem_cons.mpr (Or.inl (h1.trans hm))
      · exact List.mem_cons.mpr
          (Or.inr (List.mem_cons.mpr (Or.inl (h1.trans hm))))
    · exact List.mem_cons.mpr (Or.inr (List.mem_cons.mpr (Or.inr h2)))

theorem le_foldl_max (ws : List ℚ) :
    ∀ (w : ℚ) (v : ℚ), v ∈ w :: ws → v ≤ ws.foldl max w := by
  induction ws with
  | nil =>
    intro w v hv
    simp only [List.mem_singleton] at hv
    simp [hv]
  | cons u t ih =>
    intro w v hv
    simp only [List.foldl_cons]
    rcases List.mem_cons.mp hv with h1 | h2
    · subst h1
      exact le_trans (le_max_left v u) (ih (max v u) _ (List.mem_cons_self _ _))
    · rcases List.mem_cons.mp h2 with h3 | h4
      · subst h3
        exact le_trans (le_max_right w v) (ih (max w v) _ (List.mem_cons_self _ _))
      · exact ih (max w u) v (List.mem_cons_of_mem _ h4)

theorem mem_pendingUrls {m : List (UrlId × UrlState)} {u : UrlId} {w : ℚ} :
    (u, w) ∈ pendingUrls m ↔
      ∃ s, (u, s) ∈ m ∧ s.status = UrlStatus.Pending ∧ s.weight = w := by
  unfold pendingUrls
  rw [List.mem_filterMap]
  constructor
  · rintro ⟨p, hp, hf⟩
    by_cases hs : p.2.status = UrlStatus.Pending
    · simp only [hs, if_true, Option.some.injEq, Prod.mk.injEq] at hf
      refine ⟨p.2, ?_, hs, hf.2⟩
      rw [← hf.1, Prod.mk.eta]
      exact hp
    · simp [hs] at hf
  · rintro ⟨s, hs, hp, hw⟩
    exact ⟨(u, s), hs, by simp [hp, hw]⟩

theorem mem_pendingDomains {ds : List (DomainId × DomainState)} {d : DomainId}
    {w : ℚ} :
    (d, w) ∈ pendingDomains ds ↔
      ∃ s, (d, s) ∈ ds ∧ s.status = DomainStatus.Pending ∧ s.weight = w := by
  unfold pendingDomains
  rw [List.mem_filterMap]
  constructor
  · rintro ⟨p, hp, hf⟩
    by_cases hs : p.2.status = DomainStatus.Pending
    · simp only [hs, if_true, Option.some.injEq, Prod.mk.injEq] at hf
      refine ⟨p.2, ?_, hs, hf.2⟩
      rw [← hf.1, Prod.mk.eta]
      exact hp
    · simp [hs] at hf
  · rintro ⟨s, hs, hp, hw⟩
    exact ⟨(d, s), hs, by simp [hp, hw]⟩

theorem pendingUrls_keys_sublist (m : List (UrlId × UrlState)) :
    ((pendingUrls m).map Prod.fst).Sublist (m.map Prod.fst) := by
  induction m with
  | nil => simp [pendingUrls]
  | cons p t ih =>
    unfold pendingUrls at ih ⊢
    simp only [List.filterMap_cons]
    by_cases hs : p.2.status = UrlStatus.Pending
    · simp only [hs, if_true, List.map_cons]
      exact ih.cons₂ p.1
    · simp only [hs, if_false, List.map_cons]
      exact ih.cons p.1

theorem pendingDomains_keys_sublist (ds : List (DomainId × DomainState)) :
    ((pendingDomains ds).map Prod.fst).Sublist (ds.map Prod.fst) := by
  induction ds with
  | nil => simp [pendingDomains]
  | cons p t ih =>
    unfold pendingDomains at ih ⊢
    simp only [List.filterMap_cons]
    by_cases hs : p.2.status = DomainStatus.Pending
    · simp only [hs, if_true, List.map_cons]
      exact ih.cons₂ p.1
    · simp only [hs, if_false, List.map_cons]
      exact ih.cons p.1

theorem pendingMax_of_nil {m : List (UrlId × UrlState)}
    (h : pendingUrls m = []) : pendingMax m = 0 := by
  unfold pendingMax
  rw [h]

theorem pendingMax_mem {m : List (UrlId × UrlState)}
    (h : pendingUrls m ≠ []) :
    pendingMax m ∈ (pendingUrls m).map Prod.snd := by
  unfold pendingMax
  cases hp : pendingUrls m with
  | nil => exact absurd hp h
  | cons w ws =>
    simp only [List.map_cons]
    exact foldl_max_mem (ws.map Prod.snd) w.2

theorem pendingMax_ge {m : List (UrlId × UrlState)} :
    ∀ w ∈ (pendingUrls m).map Prod.snd, w ≤ pendingMax m := by
  intro w hw
  unfold pendingMax
  cases hp : pendingUrls m with
  | nil => simp [hp] at hw
  | cons v ws =>
    rw [hp, List.map_cons] at hw
    exact le_foldl_max (ws.map Prod.snd) v.2 w hw

theorem resolveUrls_ok (t : IdTable Url) (ids : List UrlId)
    (h : ∀ u ∈ ids, (t.value u.val).isSome) :
    ∃ us, resolveUrls t ids = some us ∧
      List.Forall₂ (fun uid url => t.value uid.val = some url) ids us := by
  induction ids with
  | nil => exact ⟨[], rfl, List.Forall₂.nil⟩
  | cons i rest ih =>
    have hi := h i (List.mem_cons_self i rest)
    cases hv : t.value i.val with
    | none => rw [hv] at hi; cases hi
    | some u =>
      obtain ⟨us, hres, hall⟩ := ih (fun v hv' => h v (List.mem_cons_of_mem i hv'))
      refine ⟨u :: us, ?_, List.Forall₂.cons hv hall⟩
      unfold resolveUrls
      rw [hv, hres]

theorem urls_lookup_none_of_ge {db : CrawlDb} (hwf : db.wf) {dn : Nat}
    (h : db.domain_ids.next_id ≤ dn) : alookup db.urls ⟨dn⟩ = none := by
  obtain ⟨_, hdt, _, _, hurls⟩ := hwf
  cases hl : alookup db.urls ⟨dn⟩ with
  | none => rfl
  | some m =>
    have hp := hurls _ (mem_of_alookup hl)
    have hv := hp.2.1
    cases hval : db.domain_ids.value (⟨dn⟩ : DomainId).val with
    | none => rw [hval] at hv; cases hv
    | some x =>
      have := hdt.2.2.2.2 _ (mem_of_alookup hval)
      simp only at this
      omega

theorem inner_lookup_none_of_ge {db : CrawlDb} (hwf : db.wf) {d : DomainId}
    {m : List (UrlId × UrlState)} (hm : alookup db.urls d = some m) {un : Nat}
    (h : db.url_ids.next_id ≤ un) : alookup m ⟨un⟩ = none := by
  obtain ⟨hut, _, _, _, hurls⟩ := hwf
  cases hl : alookup m ⟨un⟩ with
  | none => rfl
  | some s =>
    have hp := hurls _ (mem_of_alookup hm)
    have hv := hp.2.2 _ (mem_of_alookup hl)
    cases hval : db.url_ids.value (⟨un⟩ : UrlId).val with
    | none => rw [hval] at hv; cases hv
    | some x =>
      have := hut.2.2.2.2 _ (mem_of_alookup hval)
      simp only at this
      omega

theorem prepareJob_eq (db : CrawlDb) (o : Nat → ℚ) (A : DomainId) (n : Nat)
    (dst : DomainState) (dom : Domain) (us : List Url)
    (h1 : alookup db.domain_state A = some dst)
    (h2 : db.domain_ids.value A.val = some dom)
    (h3 : resolveUrls db.url_ids (db.sampledFor o A n) = some us) :
    db.prepareJob o A n = PanicOr.ok
      ({ domain := dom, fetch_sitemap := false, urls := us },
       { db with
           urls := ainsert db.urls A (markCrawling (db.sampledFor o A n) ((alookup db.urls A).getD []))
           domain_state := ainsert db.domain_state A { dst with weight := pendingMax (markCrawling (db.sampledFor o A n) ((alookup db.urls A).getD [])) } }) := by
  unfold CrawlDb.prepareJob
  dsimp only
  rw [h1]
  dsimp only
  rw [h2]
  have h3' : resolveUrls db.url_ids
      (weighted_sample (pendingUrls ((alookup db.urls A).getD [])) o n) =
      some us := h3
  rw [h3']
  try rfl

theorem prepareJob_panic (db : CrawlDb) (o : Nat → ℚ) (A : DomainId) (n : Nat)
    (h1 : alookup db.domain_state A = none) :
    db.prepareJob o A n = PanicOr.panicked
      { db with urls := ainsert db.urls A (markCrawling (db.sampledFor o A n) ((alookup db.urls A).getD [])) } := by
  unfold CrawlDb.prepareJob
  dsimp only
  rw [h1]
  rfl

theorem sampled_isSome {db : CrawlDb} (hwf : db.wf) (o : Nat → ℚ)
    (A : DomainId) (n : Nat) :
    ∀ u ∈ db.sampledFor o A n, (db.url_ids.value u.val).isSome := by
  intro u hu
  have hmem := weighted_sample_mem hu
  rcases List.mem_map.mp hmem with ⟨p, hp, hfst⟩
  obtain ⟨q, hq⟩ : ∃ q, p = (u, q) := ⟨p.2, by rw [← hfst, Prod.mk.eta]⟩
  subst hq
  obtain ⟨s, hsm, _, _⟩ := mem_pendingUrls.mp hp
  cases hl : alookup db.urls A with
  | none =>
    rw [hl] at hsm
    simp at hsm
  | some m =>
    rw [hl] at hsm
    simp only [Option.getD_some] at hsm
    exact (hwf.2.2.2.2 _ (mem_of_alookup hl)).2.2 _ hsm

theorem markCrawling_keys (sel : List UrlId) (m : List (UrlId × UrlState)) :
    (markCrawling sel m).map Prod.fst = m.map Prod.fst :=
  foldl_aupdate_keys _ sel m

theorem markCrawling_lookup_mem {sel : List UrlId} {m : List (UrlId × UrlState)}
    {u : UrlId} {s : UrlState} (hs : alookup m u = some s) (hu : u ∈ sel) :
    alookup (markCrawling sel m) u =
      some { weight := s.weight, status := UrlStatus.Crawling } := by
  unfold markCrawling
  exact foldl_aupdate_lookup_mem
    (fun st => { st with status := UrlStatus.Crawling }) (fun b => rfl)
    sel m u s hs hu

theorem markCrawling_lookup_not_mem {sel : List UrlId}
    {m : List (UrlId × UrlState)} {u : UrlId} (hu : u ∉ sel) :
    alookup (markCrawling sel m) u = alookup m u := by
  unfold markCrawling
  exact foldl_aupdate_lookup_not_mem _ sel m u hu

theorem prepareJob_ok (db : CrawlDb) (o : Nat → ℚ) (A : DomainId) (n : Nat)
    (hwf : db.wf) (hst : (alookup db.domain_state A).isSome)
    (hdv : (db.domain_ids.value A.val).isSome) :
    ∃ job db2,
      db.prepareJob o A n = PanicOr.ok (job, db2) ∧
      db2.url_ids = db.url_ids ∧
      db2.domain_ids = db.domain_ids ∧
      db2.redirects = db.redirects ∧
      (∀ B, B ≠ A → alookup db2.urls B = alookup db.urls B) ∧
      (∀ B, B ≠ A → alookup db2.domain_state B = alookup db.domain_state B) ∧
      alookup db2.urls A =
        some (markCrawling (db.sampledFor o A n) ((alookup db.urls A).getD [])) ∧
      (∃ s, alookup db.domain_state A = some s ∧
        alookup db2.domain_state A = some { s with weight := pendingMax (markCrawling (db.sampledFor o A n) ((alookup db.urls A).getD [])) }) ∧
      job.fetch_sitemap = false ∧
      db.domain_ids.value A.val = some job.domain ∧
      List.Forall₂ (fun uid url => db.url_ids.value uid.val = some url)
        (db.sampledFor o A n) job.urls ∧
      db2.wf := by
  obtain ⟨dst, hdst⟩ := Option.isSome_iff_exists.mp hst
  obtain ⟨dom, hdom⟩ := Option.isSome_iff_exists.mp hdv
  obtain ⟨us, hres, hall⟩ :=
    resolveUrls_ok db.url_ids _ (sampled_isSome hwf o A n)
  have heq := prepareJob_eq db o A n dst dom us hdst hdom hres
  refine ⟨_, _, heq, rfl, rfl, rfl, ?_, ?_, ?_, ?_, rfl, ?_, ?_, ?_⟩
  · intro B hB
    exact alookup_ainsert_ne _ _ _ _ hB
  · intro B hB
    exact alookup_ainsert_ne _ _ _ _ hB
  · exact alookup_ainsert_self _ _ _
  · exact ⟨dst, hdst, alookup_ainsert_self _ _ _⟩
  · exact hdom
  · exact hall
  · -- well-formedness of the post state
    obtain ⟨hut, hdt, hdsnd, hund, hurls⟩ := hwf
    have hkeys0 : (((alookup db.urls A).getD [] :
        List (UrlId × UrlState)).map Prod.fst).Nodup := by
      cases hl : alookup db.urls A with
      | none => simp
      | some m =>
        simp only [Option.getD_some]
        exact (hurls _ (mem_of_alookup hl)).1
    refine ⟨hut, hdt, ?_, ?_, ?_⟩
    · exact ainsert_keys_nodup _ _ hdsnd
    · exact ainsert_keys_nodup _ _ hund
    · intro p hp
      rcases mem_ainsert hund hp with h1 | h2
      · subst h1
        refine ⟨?_, hdv, ?_⟩
        · rw [markCrawling_keys]
          exact hkeys0
        · intro q hq
          have hqk : q.1 ∈ (markCrawling (db.sampledFor o A n)
              ((alookup db.urls A).getD [])).map Prod.fst :=
            List.mem_map.mpr ⟨q, hq, rfl⟩
          rw [markCrawling_keys] at hqk
          rcases List.mem_map.mp hqk with ⟨p', hp', hfst⟩
          cases hl : alookup db.urls A with
          | none =>
            rw [hl] at hp'
            simp at hp'
          | some m =>
            rw [hl] at hp'
            simp only [Option.getD_some] at hp'
            rw [← hfst]
            exact (hurls _ (mem_of_alookup hl)).2.2 _ hp'
      · exact hurls _ h2.1

theorem prepareJobsGo_cons_ok (o : Nat → Nat → ℚ) (n : Nat) (d : DomainId)
    (rest : List DomainId) (idx : Nat) (db db2 : CrawlDb) (job : Job)
    (h : db.prepareJob (o idx) d n = PanicOr.ok (job, db2)) :
    prepareJobsGo o n (d :: rest) idx db =
      match prepareJobsGo o n rest (idx + 1) db2 with
      | PanicOr.panicked s => PanicOr.panicked s
      | PanicOr.ok (jobs, db3) => PanicOr.ok (job :: jobs, db3) := by
  simp only [prepareJobsGo]
  rw [h]

theorem prepareJobsGo_ok (o : Nat → Nat → ℚ) (n : Nat) (ds : List DomainId) :
    ∀ (idx : Nat) (db : CrawlDb), db.wf →
      (∀ d ∈ ds, (alookup db.domain_state d).isSome) →
      (∀ d ∈ ds, (db.domain_ids.value d.val).isSome) →
      ∃ jobs db',
        prepareJobsGo o n ds idx db = PanicOr.ok (jobs, db') ∧
        jobs.length = ds.length ∧
        db'.url_ids = db.url_ids ∧
        db'.domain_ids = db.domain_ids ∧
        db'.wf ∧
        (∀ B, B ∉ ds → alookup db'.urls B = alookup db.urls B ∧
          alookup db'.domain_state B = alookup db.domain_state B) ∧
        (ds.Nodup → ∀ (k : Nat) (hk : k < ds.length),
          alookup db'.urls ds[k] =
            some (markCrawling (db.sampledFor (o (idx + k)) ds[k] n) ((alookup db.urls ds[k]).getD [])) ∧
          (∃ s, alookup db.domain_state ds[k] = some s ∧
            alookup db'.domain_state ds[k] = some { s with weight := pendingMax (markCrawling (db.sampledFor (o (idx + k)) ds[k] n) ((alookup db.urls ds[k]).getD [])) }) ∧
          (∃ job, jobs[k]? = some job ∧ job.fetch_sitemap = false ∧
            db.domain_ids.value ds[k].val = some job.domain ∧
            List.Forall₂ (fun uid url => db.url_ids.value uid.val = some url)
              (db.sampledFor (o (idx + k)) ds[k] n) job.urls)) := by
  induction ds with
  | nil =>
    intro idx db hwf _ _
    refine ⟨[], db, rfl, rfl, rfl, rfl, hwf, fun B _ => ⟨rfl, rfl⟩, ?_⟩
    intro _ k hk
    simp at hk
  | cons d rest ih =>
    intro idx db hwf hst hdv
    obtain ⟨job, db2, heq, hu2, hd2, hr2, hframeU, hframeD, hAurls, hAds, hjf,
      hjd, hjall, hwf2⟩ :=
      prepareJob_ok db (o idx) d n hwf (hst d (List.mem_cons_self d rest))
        (hdv d (List.mem_cons_self d rest))
    have hst2 : ∀ d' ∈ rest, (alookup db2.domain_state d').isSome := by
      intro d' hd'
      by_cases hdd : d' = d
      · subst hdd
        obtain ⟨s, _, hpost⟩ := hAds
        rw [hpost]
        rfl
      · rw [hframeD d' hdd]
        exact hst d' (List.mem_cons_of_mem d hd')
    have hdv2 : ∀ d' ∈ rest, (db2.domain_ids.value d'.val).isSome := by
      intro d' hd'
      rw [hd2]
      exact hdv d' (List.mem_cons_of_mem d hd')
    obtain ⟨jobs', db', hgo, hlen, hu', hd', hwf', hframe', hpos'⟩ :=
      ih (idx + 1) db2 hwf2 hst2 hdv2
    refine ⟨job :: jobs', db', ?_, by simp [hlen], by rw [hu', hu2],
      by rw [hd', hd2], hwf', ?_, ?_⟩
    · rw [prepareJobsGo_cons_ok o n d rest idx db db2 job heq, hgo]
    · intro B hB
      simp only [List.mem_cons] at hB
      push_neg at hB
      obtain ⟨hf1, hf2⟩ := hframe' B hB.2
      exact ⟨by rw [hf1, hframeU B hB.1], by rw [hf2, hframeD B hB.1]⟩
    · intro hnd k hk
      have hnd' := List.nodup_cons.mp hnd
      cases k with
      | zero =>
        have hdrest : d ∉ rest := hnd'.1
        obtain ⟨hf1, hf2⟩ := hframe' d hdrest
        simp only [List.getElem_cons_zero, Nat.add_zero]
        refine ⟨by rw [hf1, hAurls], ?_, ?_⟩
        · obtain ⟨s, hpre, hpost⟩ := hAds
          exact ⟨s, hpre, by rw [hf2, hpost]⟩
        · exact ⟨job, by simp, hjf, hjd, hjall⟩
      | succ k' =>
        have hk' : k' < rest.length := by
          simpa using hk
        have hA : (d :: rest)[k' + 1] = rest[k'] := by
          simp
        have hArest : rest[k'] ∈ rest := List.getElem_mem hk'
        have hAd : rest[k'] ≠ d := by
          intro he
          exact hnd'.1 (he ▸ hArest)
        have hsame : alookup db2.urls rest[k'] = alookup db.urls rest[k'] :=
          hframeU _ hAd
        have hsamed : alookup db2.domain_state rest[k'] =
            alookup db.domain_state rest[k'] := hframeD _ hAd
        have hsampled : db2.sampledFor (o (idx + 1 + k')) rest[k'] n =
            db.sampledFor (o (idx + (k' + 1))) rest[k'] n := by
          unfold CrawlDb.sampledFor
          rw [hsame]
          have : idx + 1 + k' = idx + (k' + 1) := by omega
          rw [this]
        obtain ⟨hp1, hp2, hp3⟩ := hpos' hnd'.2 k' hk'
        rw [hA]
        refine ⟨?_, ?_, ?_⟩
        · rw [hp1, hsampled, hsame]
        · obtain ⟨s, hpre, hpost⟩ := hp2
          refine ⟨s, by rw [← hsamed]; exact hpre, ?_⟩
          rw [hpost, hsampled, hsame]
        · obtain ⟨jb, hjb, hjbf, hjbd, hjball⟩ := hp3
          refine ⟨jb, by simpa using hjb, hjbf, ?_, ?_⟩
          · rw [← hd2]
            exact hjbd
          · rw [← hu2, ← hsampled]
            exact hjball

theorem update_single_redirect_eq (db : CrawlDb) (d : Domain) (X Y : Url)
    (dn : Nat)
    (hdn : alookup (db.domain_ids.bulk_ids [Domain.fromUrl X]).2.t2id
      (Domain.fromUrl X) = some dn) :
    db.update_url_status
      [{ domain := d, discovered_urls := []
         url_responses := [UrlResponse.Redirected X Y] }] =
      { url_ids := (db.url_ids.bulk_ids [X, Y]).2
        domain_ids := (db.domain_ids.bulk_ids [Domain.fromUrl X]).2
        redirects := db.redirects.put X Y
        domain_state := entryOrInsert db.domain_state ⟨dn⟩ { weight := 0, status := DomainStatus.Pending }
        urls := ainsert db.urls ⟨dn⟩ ((alookup db.urls ⟨dn⟩).getD []) } := by
  unfold CrawlDb.update_url_status
  simp only [List.foldl_cons, List.foldl_nil, apush, alookup, ainsert,
    UrlResponse.respUrl, responseUrls, List.flatMap_cons, List.flatMap_nil,
    List.map_cons, List.map_nil, List.append_nil, applyResponse]
  rw [IdTable.id_of_lookup hdn]

theorem IdTable.id_of_none {T : Type} [DecidableEq T] {t : IdTable T} {x : T}
    (h : alookup t.t2id x = none) :
    t.id x = (t.next_id,
      { t2id := (x, t.next_id) :: t.t2id
        id2t := (t.next_id, x) :: t.id2t
        next_id := t.next_id + 1 }) := by
  unfold IdTable.id
  rw [h]

theorem IdTable.id_lookup_self {T : Type} [DecidableEq T] (t : IdTable T)
    (x : T) : alookup (t.id x).2.t2id x = some (t.id x).1 := by
  cases hx : alookup t.t2id x with
  | some i =>
    rw [IdTable.id_of_lookup hx]
    exact hx
  | none =>
    rw [IdTable.id_of_none hx]
    simp [alookup_cons]

theorem markCrawling_nil (sel : List UrlId) : markCrawling sel [] = [] := by
  unfold markCrawling
  induction sel with
  | nil => rfl
  | cons i rest ih => simpa [aupdate] using ih

/-! ## The claims -/

/-- C9: opening an Identity Table against a path unconditionally clears any
persisted data previously stored at that path before use: whatever forward
and backward stores a previous process run left there, the opened table is
the empty bijection (both stores empty, every reverse lookup misses) with
its allocation counter at 0 (the first inserted value receives id 0). -/
theorem C9_open_clears {T : Type} [DecidableEq T]
    (priorT2id : List (T × Nat)) (priorId2t : List (Nat × T)) :
    (IdTable.openTable priorT2id priorId2t).t2id = [] ∧
    (IdTable.openTable priorT2id priorId2t).id2t = [] ∧
    (IdTable.openTable priorT2id priorId2t).next_id = 0 ∧
    (∀ i, (IdTable.openTable priorT2id priorId2t).value i = none) ∧
    (∀ x, ((IdTable.openTable priorT2id priorId2t).id x).1 = 0) :=
  ⟨rfl, rfl, rfl, fun _ => rfl, fun _ => rfl⟩

/-- C5: repeated identity calls return the same id and leave the table
unchanged; on a well-formed table, two distinct values receive distinct ids;
the counter is monotone; and starting from a freshly opened table, the n
distinct values inserted in sequence receive exactly the ids 0..n-1 (the
n-th newly seen value receives id n-1). -/
theorem C5_identity_assignment {T : Type} [DecidableEq T] (t : IdTable T)
    (x y : T) :
    ((t.id x).2.id x = ((t.id x).1, (t.id x).2)) ∧
    (t.next_id ≤ (t.id x).2.next_id) ∧
    (t.wfTable → x ≠ y → ((t.id x).2.id y).1 ≠ (t.id x).1) ∧
    (∀ (p1 : List (T × Nat)) (p2 : List (Nat × T)) (xs : List T), xs.Nodup →
      (seqIds (IdTable.openTable p1 p2) xs).1 = List.range xs.length) := by
  refine ⟨IdTable.id_of_lookup (IdTable.id_lookup_self t x), ?_, ?_, ?_⟩
  · cases hx : alookup t.t2id x with
    | some i =>
      rw [IdTable.id_of_lookup hx]
    | none =>
      rw [IdTable.id_of_none hx]
      exact Nat.le_succ _
  · intro hwf hxy
    obtain ⟨h1, h2, h3, h4, h5⟩ := hwf
    cases hx : alookup t.t2id x with
    | some ix =>
      rw [IdTable.id_of_lookup hx]
      cases hy : alookup t.t2id y with
      | some iy =>
        rw [IdTable.id_of_lookup hy]
        intro he
        simp only at he
        have hinj := List.inj_on_of_nodup_map h2 (mem_of_alookup hy)
          (mem_of_alookup hx) (by simpa using he)
        rw [Prod.mk.injEq] at hinj
        exact hxy (hinj.1.symm)
      | none =>
        rw [IdTable.id_of_none hy]
        have hb := (h4 _ (mem_of_alookup hx)).1
        simp only
        omega
    | none =>
      rw [IdTable.id_of_none hx]
      simp only
      have hyx : y ≠ x := fun he => hxy he.symm
      cases hy : alookup t.t2id y with
      | some iy =>
        have hy' : alookup
            (({ t2id := (x, t.next_id) :: t.t2id
                id2t := (t.next_id, x) :: t.id2t
                next_id := t.next_id + 1 } : IdTable T)).t2id y = some iy := by
          rw [alookup_cons]
          simp [hyx, hy]
        rw [IdTable.id_of_lookup hy']
        have hb := (h4 _ (mem_of_alookup hy)).1
        simp only
        omega
      | none =>
        have hy' : alookup
            (({ t2id := (x, t.next_id) :: t.t2id
                id2t := (t.next_id, x) :: t.id2t
                next_id := t.next_id + 1 } : IdTable T)).t2id y = none := by
          rw [alookup_cons]
          simp [hyx, hy]
        rw [IdTable.id_of_none hy']
        simp only
        omega
  · intro p1 p2 xs hnd
    rw [seqIds_fresh xs (IdTable.openTable p1 p2) (fun z _ => rfl) hnd,
      List.range_eq_range']
    rfl

/-- Witness for C5 at concrete inputs: table freshly opened over `Nat`,
values 0 and 1, and the two-element insertion sequence `[5, 7]`. -/
theorem C5_identity_assignment_witness :
    (IdTable.openTable [] [] : IdTable Nat).wfTable ∧ (0 : Nat) ≠ 1 ∧
    ((((IdTable.openTable [] [] : IdTable Nat).id 0).2.id 1).1 ≠
      ((IdTable.openTable [] [] : IdTable Nat).id 0).1) ∧
    (seqIds (IdTable.openTable [] [] : IdTable Nat) [5, 7]).1 = List.range 2 := by
  have h := C5_identity_assignment (IdTable.openTable [] [] : IdTable Nat) 0 1
  exact ⟨by decide, by decide, h.2.2.1 (by decide) (by decide),
    h.2.2.2 [] [] [5, 7] (by decide)⟩

/-- C6: for every value inserted through `id` or `bulk_ids` on a well-formed
table, resolving the returned id back through `value` returns exactly the
original value; for `bulk_ids` this holds pointwise between the input batch
and the returned id vector. -/
theorem C6_value_roundtrip {T : Type} [DecidableEq T] (t : IdTable T) (x : T)
    (xs : List T) (hwf : t.wfTable) :
    ((t.id x).2.value (t.id x).1 = some x) ∧
    List.Forall₂ (fun v i => (t.bulk_ids xs).2.value i = some v)
      xs (t.bulk_ids xs).1 := by
  refine ⟨IdTable.id_value_eq x hwf, ?_⟩
  have hall := bulkGo_forall2 xs t [] (bulkInv_nil t)
  have hwf' := bulkGo_wf xs t [] (bulkInv_nil t) hwf
  refine List.Forall₂.imp ?_ hall
  intro v i h
  exact (hwf'.2.2.2.1 _ (mem_of_alookup h)).2

/-- Witness for C6 at concrete inputs: a fresh `Nat` table, the value 42,
and the batch `[1, 2, 1]`. -/
theorem C6_value_roundtrip_witness :
    ((((IdTable.openTable [] [] : IdTable Nat).id 42).2.value
      ((IdTable.openTable [] [] : IdTable Nat).id 42).1 = some 42)) ∧
    List.Forall₂
      (fun v i => ((IdTable.openTable [] [] : IdTable Nat).bulk_ids
        [1, 2, 1]).2.value i = some v)
      [1, 2, 1] ((IdTable.openTable [] [] : IdTable Nat).bulk_ids [1, 2, 1]).1 :=
  C6_value_roundtrip (IdTable.openTable [] []) 42 [1, 2, 1] (by decide)

/-- C7: `bulk_ids` returns one id per input element in input order (the
returned vector has the input's length), and on a batch `[a, a, b]` of
previously unseen values it allocates exactly two new ids — both occurrences
of `a` receive `next_id` and `b` receives `next_id + 1`, and the counter
advances by exactly 2. -/
theorem C7_bulk_dedupe {T : Type} [DecidableEq T] (t : IdTable T) (a b : T)
    (xs : List T) (ha : alookup t.t2id a = none) (hb : alookup t.t2id b = none)
    (hab : a ≠ b) :
    (t.bulk_ids xs).1.length = xs.length ∧
    (t.bulk_ids [a, a, b]).1 = [t.next_id, t.next_id, t.next_id + 1] ∧
    (t.bulk_ids [a, a, b]).2.next_id = t.next_id + 2 := by
  have hba : b ≠ a := fun he => hab he.symm
  have h2 : alookup
      (({ t2id := (a, t.next_id) :: t.t2id
          id2t := (t.next_id, a) :: t.id2t
          next_id := t.next_id + 1 } : IdTable T)).t2id a = some t.next_id := by
    simp [alookup_cons]
  have h3t : alookup
      (({ t2id := (a, t.next_id) :: t.t2id
          id2t := (t.next_id, a) :: t.id2t
          next_id := t.next_id + 1 } : IdTable T)).t2id b = none := by
    rw [alookup_cons]
    simp [hba, hb]
  have h3a : alookup ((a, t.next_id) :: ([] : List (T × Nat))) b = none := by
    rw [alookup_cons]
    simp [hba, alookup_nil]
  refine ⟨bulkGo_length xs t [], ?_, ?_⟩
  · unfold IdTable.bulk_ids
    rw [bulkGo_cons_fresh t [] a [a, b] ha rfl,
      bulkGo_cons_found _ _ a [b] t.next_id h2,
      bulkGo_cons_fresh _ _ b [] h3t h3a]
    rfl
  · unfold IdTable.bulk_ids
    rw [bulkGo_cons_fresh t [] a [a, b] ha rfl,
      bulkGo_cons_found _ _ a [b] t.next_id h2,
      bulkGo_cons_fresh _ _ b [] h3t h3a]
    rfl

/-- Witness for C7 at concrete inputs: a fresh `Nat` table, `a := 0`,
`b := 1`, and the extra batch `[3, 4]`. -/
theorem C7_bulk_dedupe_witness :
    ((IdTable.openTable [] [] : IdTable Nat).bulk_ids [3, 4]).1.length = 2 ∧
    ((IdTable.openTable [] [] : IdTable Nat).bulk_ids [0, 0, 1]).1 = [0, 0, 1] ∧
    ((IdTable.openTable [] [] : IdTable Nat).bulk_ids [0, 0, 1]).2.next_id = 2 := by
  have h := C7_bulk_dedupe (IdTable.openTable [] [] : IdTable Nat) 0 1 [3, 4]
    rfl rfl (by decide)
  exact ⟨h.1, by simpa using h.2.1, by simpa using h.2.2⟩

/-- C8: the weighted sampler returns nothing for `k = 0`; for `k ≥ n` it
returns all `n` items (a permutation of the input items, hence no input
position is returned twice); and in general it returns `min k n` items drawn
from the input without reusing an input position (its output is a
sub-multiset of the input items, and is duplicate-free whenever the input
items are pairwise distinct) — so for `0 < k < n` it returns exactly `k`
distinct items, each drawn from the input. -/
theorem C8_sample_contract {T : Type} (items : List (T × ℚ)) (o : Nat → ℚ)
    (k : Nat) :
    (weighted_sample items o 0 = []) ∧
    (items.length ≤ k →
      (weighted_sample items o k).Perm (items.map Prod.fst)) ∧
    (k < items.length → (weighted_sample items o k).length = k) ∧
    (((weighted_sample items o k : List T) : Multiset T) ≤
      (items.map Prod.fst : Multiset T)) ∧
    ((items.map Prod.fst).Nodup → (weighted_sample items o k).Nodup) := by
  refine ⟨weighted_sample_zero items o, weighted_sample_perm_of_le items o,
    ?_, weighted_sample_le items o k, fun h => weighted_sample_nodup h⟩
  intro hk
  rw [weighted_sample_length]
  omega

/-- Witness for C8 at concrete inputs: three weighted `Nat` items with
`k = 0`, `k = 5 ≥ 3` and `k = 2 < 3`. -/
theorem C8_sample_contract_witness :
    (weighted_sample [((0 : Nat), (1 : ℚ)), (1, 2), (2, 3)] (fun _ => 1) 0
      = []) ∧
    ((weighted_sample [((0 : Nat), (1 : ℚ)), (1, 2), (2, 3)] (fun _ => 1) 5).Perm
      [0, 1, 2]) ∧
    ((weighted_sample [((0 : Nat), (1 : ℚ)), (1, 2), (2, 3)]
      (fun _ => 1) 2).length = 2) ∧
    (weighted_sample [((0 : Nat), (1 : ℚ)), (1, 2), (2, 3)]
      (fun _ => 1) 2).Nodup := by
  have h5 := C8_sample_contract [((0 : Nat), (1 : ℚ)), (1, 2), (2, 3)]
    (fun _ => 1) 5
  have h2 := C8_sample_contract [((0 : Nat), (1 : ℚ)), (1, 2), (2, 3)]
    (fun _ => 1) 2
  refine ⟨h2.1, ?_, h2.2.2.1 (by decide), h2.2.2.2.2 (by decide)⟩
  have := h5.2.1 (by decide)
  simpa using this

/-- C1 (amended): for every URL passed to `insert_seed_urls`, the operation
resolves or creates its domain and URL identity; it inserts a `Pending`
weight-0 domain state only if the domain has no state yet (its existing
state, if any, is preserved); but the URL's own state is unconditionally set
to `Pending` with weight 0 (`BTreeMap::insert` at source lines 383-389
overwrites any existing `UrlState`), so the call is idempotent only for URLs
whose state is already `Pending` with weight 0. -/
theorem C1_insert_seed_overwrites (db : CrawlDb) (url : Url) :
    ((db.insert_seed_urls [url]).urlStateOf url =
      some { weight := 0, status := UrlStatus.Pending }) ∧
    (alookup (db.insert_seed_urls [url]).domain_state
        ⟨(db.domain_ids.id (Domain.fromUrl url)).1⟩ =
      some ((alookup db.domain_state
        ⟨(db.domain_ids.id (Domain.fromUrl url)).1⟩).getD
          { weight := 0, status := DomainStatus.Pending })) := by
  unfold CrawlDb.insert_seed_urls CrawlDb.urlStateOf
  simp only [List.foldl_cons, List.foldl_nil]
  rw [IdTable.id_lookup_self, IdTable.id_lookup_self]
  dsimp only
  constructor
  · rw [alookup_ainsert_self]
    simp only [Option.getD_some]
    rw [alookup_ainsert_self]
  · exact alookup_entryOrInsert_self _ _ _

/-- C1 counterexample: after `wUrlA`'s crawl succeeds its state is `Done`
with weight 0; re-seeding it resets the state to `Pending` — the existing
`UrlState` is not left unchanged, refuting the claimed idempotence. -/
theorem C1_counterexample :
    (cxDb.urlStateOf wUrlA = some { weight := 0, status := UrlStatus.Done }) ∧
    ((cxDb.insert_seed_urls [wUrlA]).urlStateOf wUrlA =
      some { weight := 0, status := UrlStatus.Pending }) := by
  constructor
  · decide
  · decide

/-- C4: processing a `Redirected{url: X, new_url: Y}` response records
`(X, Y)` in the Redirect Store, so a subsequent redirect lookup for X
returns Y, and it leaves X's own `UrlState` (status and weight) exactly as
it was before the call. -/
theorem C4_redirect_records_and_preserves (db : CrawlDb) (d : Domain)
    (X Y : Url) (hwf : db.wf) :
    ((db.update_url_status
        [{ domain := d, discovered_urls := []
           url_responses := [UrlResponse.Redirected X Y] }]).redirects.get X =
      some Y) ∧
    ((db.update_url_status
        [{ domain := d, discovered_urls := []
           url_responses := [UrlResponse.Redirected X Y] }]).urlStateOf X =
      db.urlStateOf X) := by
  obtain ⟨dn, hdn0⟩ := bulkGo_mem_lookup [Domain.fromUrl X] db.domain_ids []
    (Domain.fromUrl X) (by simp)
  have hdn : alookup (db.domain_ids.bulk_ids [Domain.fromUrl X]).2.t2id
      (Domain.fromUrl X) = some dn := hdn0
  rw [update_single_redirect_eq db d X Y dn hdn]
  constructor
  · exact alookup_ainsert_self _ _ _
  · obtain ⟨un, hun0⟩ := bulkGo_mem_lookup [X, Y] db.url_ids [] X (by simp)
    have hun : alookup (db.url_ids.bulk_ids [X, Y]).2.t2id X = some un := hun0
    unfold CrawlDb.urlStateOf
    dsimp only
    rw [hdn, hun]
    dsimp only
    rw [alookup_ainsert_self]
    simp only [Option.getD_some]
    rcases bulkGo_lookup_cases [Domain.fromUrl X] db.domain_ids []
        (Domain.fromUrl X) dn (bulkInv_nil _) hdn with hdk | hdf
    · rcases bulkGo_lookup_cases [X, Y] db.url_ids [] X un (bulkInv_nil _) hun
          with huk | huf
      · rw [hdk, huk]
      · rw [hdk, huf.1]
        dsimp only
        cases hl : alookup db.urls ⟨dn⟩ with
        | none => simp [alookup_nil]
        | some m =>
          simp only [Option.getD_some]
          exact inner_lookup_none_of_ge hwf hl huf.2
    · rw [hdf.1]
      dsimp only
      rw [urls_lookup_none_of_ge hwf hdf.2]
      simp
      cases alookup db.url_ids.t2id X <;> rfl

/-- Witness for C4 at concrete inputs: the seeded two-domain database,
redirecting `wUrlA` to `wUrlB`. -/
theorem C4_redirect_witness :
    ((wDb2.update_url_status
        [{ domain := "a.com", discovered_urls := []
           url_responses := [UrlResponse.Redirected wUrlA wUrlB] }]).redirects.get
      wUrlA = some wUrlB) ∧
    ((wDb2.update_url_status
        [{ domain := "a.com", discovered_urls := []
           url_responses := [UrlResponse.Redirected wUrlA wUrlB] }]).urlStateOf
      wUrlA = wDb2.urlStateOf wUrlA) :=
  C4_redirect_records_and_preserves wDb2 "a.com" wUrlA wUrlB (by decide)

/-- C3: `sample_domains` samples only among domains whose status is
`Pending` (every returned id had a `Pending` state before the call),
transitions every returned domain to `CrawlInProgress` (preserving its
weight) while leaving all other domains untouched, returns all pending
domains when the requested count covers them, and — once a call has
returned every `Pending` domain — a further `sample_domains` call returns
the empty list. -/
theorem C3_sample_domains (db : CrawlDb) (o o' : Nat → ℚ) (k k' : Nat)
    (hwf : db.wf) :
    (∀ dd ∈ (db.sample_domains o k).1, ∃ s,
      alookup db.domain_state dd = some s ∧
      s.status = DomainStatus.Pending ∧
      alookup (db.sample_domains o k).2.domain_state dd =
        some { weight := s.weight, status := DomainStatus.CrawlInProgress }) ∧
    (∀ dd, dd ∉ (db.sample_domains o k).1 →
      alookup (db.sample_domains o k).2.domain_state dd =
        alookup db.domain_state dd) ∧
    ((pendingDomains db.domain_state).length ≤ k →
      (db.sample_domains o k).1.Perm
        ((pendingDomains db.domain_state).map Prod.fst)) ∧
    ((∀ p ∈ db.domain_state, p.2.status = DomainStatus.Pending →
        p.1 ∈ (db.sample_domains o k).1) →
      ((db.sample_domains o k).2.sample_domains o' k').1 = []) := by
  have hnd : (db.domain_state.map Prod.fst).Nodup := hwf.2.2.1
  refine ⟨?_, ?_, ?_, ?_⟩
  · intro dd hdd
    have hmem := weighted_sample_mem hdd
    rcases List.mem_map.mp hmem with ⟨p, hp, hfst⟩
    obtain ⟨w, hw⟩ : ∃ w, p = (dd, w) := ⟨p.2, by rw [← hfst, Prod.mk.eta]⟩
    subst hw
    obtain ⟨s, hsm, hpend, _⟩ := mem_pendingDomains.mp hp
    have hls := alookup_of_mem_nodup hnd hsm
    refine ⟨s, hls, hpend, ?_⟩
    unfold CrawlDb.sample_domains
    dsimp only
    exact foldl_aupdate_lookup_mem
      (fun st => { st with status := DomainStatus.CrawlInProgress })
      (fun b => rfl) (db.sample_domains o k).1 db.domain_state dd s hls hdd
  · intro dd hdd
    unfold CrawlDb.sample_domains
    dsimp only
    exact foldl_aupdate_lookup_not_mem _ _ _ dd hdd
  · intro hk
    exact weighted_sample_perm_of_le _ o hk
  · intro hcov
    unfold CrawlDb.sample_domains
    dsimp only
    have hpd : pendingDomains
        ((weighted_sample (pendingDomains db.domain_state) o k).foldl
          (fun m i => aupdate m i
            (fun st => { st with status := DomainStatus.CrawlInProgress }))
          db.domain_state) = [] := by
      unfold pendingDomains
      rw [List.filterMap_eq_nil_iff]
      intro p hp
      have hkeys : ((weighted_sample (pendingDomains db.domain_state) o k).foldl
          (fun m i => aupdate m i
            (fun st => { st with status := DomainStatus.CrawlInProgress }))
          db.domain_state).map Prod.fst = db.domain_state.map Prod.fst :=
        foldl_aupdate_keys _ _ _
      have hnd' : (((weighted_sample (pendingDomains db.domain_state) o k).foldl
          (fun m i => aupdate m i
            (fun st => { st with status := DomainStatus.CrawlInProgress }))
          db.domain_state).map Prod.fst).Nodup := by
        rw [hkeys]
        exact hnd
      have hlp := alookup_of_mem_nodup hnd' hp
      have hkmem : p.1 ∈ db.domain_state.map Prod.fst := by
        rw [← hkeys]
        exact List.mem_map.mpr ⟨p, hp, rfl⟩
      obtain ⟨s0, hs0⟩ : ∃ s0, alookup db.domain_state p.1 = some s0 := by
        cases hl : alookup db.domain_state p.1 with
        | none =>
          exact absurd hkmem ((alookup_eq_none_iff _ _).mp hl)
        | some s0 => exact ⟨s0, rfl⟩
      by_cases hin : p.1 ∈ weighted_sample (pendingDomains db.domain_state) o k
      · have := foldl_aupdate_lookup_mem
          (fun st => { st with status := DomainStatus.CrawlInProgress })
          (fun b => rfl) (weighted_sample (pendingDomains db.domain_state) o k)
          db.domain_state p.1 s0 hs0 hin
        rw [hlp] at this
        have hp2 : p.2 =
            { weight := s0.weight, status := DomainStatus.CrawlInProgress } := by
          simpa using this
        rw [hp2]
        simp
      · have := foldl_aupdate_lookup_not_mem
          (fun st => { st with status := DomainStatus.CrawlInProgress })
          (weighted_sample (pendingDomains db.domain_state) o k)
          db.domain_state p.1 hin
        rw [hlp, hs0] at this
        have hp2 : p.2 = s0 := by simpa using this
        have hnp : p.2.status ≠ DomainStatus.Pending := by
          intro hpend
          exact hin
            (hcov (p.1, s0) (mem_of_alookup hs0) (by rw [← hp2]; exact hpend))
        simp [hnp]
    rw [hpd]
    exact weighted_sample_nil o' k'

/-- Witness for C3 at concrete inputs: the seeded two-domain database,
sampling 2 then 1. -/
theorem C3_sample_domains_witness :
    ((wDb2.sample_domains (fun _ => 1) 2).1.Perm
      ((pendingDomains wDb2.domain_state).map Prod.fst)) ∧
    (((wDb2.sample_domains (fun _ => 1) 2).2.sample_domains
      (fun _ => 1) 1).1 = []) := by
  have h := C3_sample_domains wDb2 (fun _ => 1) (fun _ => 1) 2 1 (by decide)
  exact ⟨h.2.2.1 (by decide), h.2.2.2 (by decide)⟩

/-- C2: under the preconditions under which `prepare_jobs` is invoked
(well-formed state, distinct domain ids each with a domain state and a
resolvable id, as produced by `sample_domains`), the call succeeds with one
job per domain, and for the domain at any position `k` of the argument
list: every URL selected by the sampler was `Pending` before the call and
is `Crawling` afterwards (with its weight unchanged), unselected URLs are
untouched, the domain's stored weight afterwards equals the maximum weight
among its URLs still `Pending` (an attained upper bound), or 0 if none
remain, and the returned job carries the resolved domain and exactly the
selected URLs; in particular, for a domain with exactly one `Pending` URL
and `urls_per_job ≥ 1`, precisely that URL is selected (hence returned in
the job and marked `Crawling`) and no `Pending` URL remains, so the
domain's weight is recomputed to 0. -/
theorem C2_prepare_jobs (db : CrawlDb) (o : Nat → Nat → ℚ)
    (domains : List DomainId) (n k : Nat) (hwf : db.wf)
    (hnd : domains.Nodup) (hk : k < domains.length)
    (hst : ∀ dd ∈ domains, (alookup db.domain_state dd).isSome)
    (hdv : ∀ dd ∈ domains, (db.domain_ids.value dd.val).isSome) :
    ∃ jobs db', db.prepare_jobs o domains n = PanicOr.ok (jobs, db') ∧
      jobs.length = domains.length ∧
      (let A := domains[k]
       let mA := (alookup db.urls A).getD []
       let sel := db.sampledFor (o k) A n
       let mA' := markCrawling sel mA
       (∀ u ∈ sel, ∃ s, alookup mA u = some s ∧
         s.status = UrlStatus.Pending ∧
         alookup mA' u =
           some { weight := s.weight, status := UrlStatus.Crawling }) ∧
       (∀ u, u ∉ sel → alookup mA' u = alookup mA u) ∧
       alookup db'.urls A = some mA' ∧
       (∃ s, alookup db.domain_state A = some s ∧
         alookup db'.domain_state A =
           some { s with weight := pendingMax mA' }) ∧
       (pendingUrls mA' = [] → pendingMax mA' = 0) ∧
       (pendingUrls mA' ≠ [] →
         pendingMax mA' ∈ (pendingUrls mA').map Prod.snd) ∧
       (∀ w ∈ (pendingUrls mA').map Prod.snd, w ≤ pendingMax mA') ∧
       (∃ job, jobs[k]? = some job ∧ job.fetch_sitemap = false ∧
         db.domain_ids.value A.val = some job.domain ∧
         List.Forall₂ (fun uid url => db.url_ids.value uid.val = some url)
           sel job.urls) ∧
       (∀ u0 w0, pendingUrls mA = [(u0, w0)] → 1 ≤ n →
         sel = [u0] ∧ pendingUrls mA' = [])) := by
  obtain ⟨jobs, db', heq, hlen, _, _, _, _, hpos⟩ :=
    prepareJobsGo_ok o n domains 0 db hwf hst hdv
  obtain ⟨hp1, hp2, hp3⟩ := hpos hnd k hk
  rw [Nat.zero_add] at hp1 hp2 hp3
  refine ⟨jobs, db', heq, hlen, ?_⟩
  have hkeys : ((((alookup db.urls domains[k]).getD []) :
      List (UrlId × UrlState)).map Prod.fst).Nodup := by
    cases hl : alookup db.urls domains[k] with
    | none => simp
    | some m =>
      simp only [Option.getD_some]
      exact (hwf.2.2.2.2 _ (mem_of_alookup hl)).1
  have hselmem : ∀ u ∈ db.sampledFor (o k) domains[k] n, ∃ s,
      alookup ((alookup db.urls domains[k]).getD []) u = some s ∧
      s.status = UrlStatus.Pending := by
    intro u hu
    have hmem := weighted_sample_mem hu
    rcases List.mem_map.mp hmem with ⟨p, hp, hfst⟩
    obtain ⟨w, hw⟩ : ∃ w, p = (u, w) := ⟨p.2, by rw [← hfst, Prod.mk.eta]⟩
    subst hw
    obtain ⟨s, hsm, hpend, _⟩ := mem_pendingUrls.mp hp
    exact ⟨s, alookup_of_mem_nodup hkeys hsm, hpend⟩
  refine ⟨?_, ?_, hp1, hp2, fun h => pendingMax_of_nil h,
    fun h => pendingMax_mem h, pendingMax_ge, hp3, ?_⟩
  · intro u hu
    obtain ⟨s, hls, hpend⟩ := hselmem u hu
    exact ⟨s, hls, hpend, markCrawling_lookup_mem hls hu⟩
  · intro u hu
    exact markCrawling_lookup_not_mem hu
  · intro u0 w0 hone hn
    have hsel : db.sampledFor (o k) domains[k] n = [u0] := by
      have hperm : (db.sampledFor (o k) domains[k] n).Perm
          ((pendingUrls ((alookup db.urls domains[k]).getD [])).map Prod.fst) := by
        refine weighted_sample_perm_of_le _ (o k) ?_
        rw [hone]
        simpa using hn
      rw [hone] at hperm
      simpa using List.perm_singleton.mp (by simpa using hperm)
    refine ⟨hsel, ?_⟩
    unfold pendingUrls
    rw [List.filterMap_eq_nil_iff]
    intro p hp
    have hkeys' : ((markCrawling (db.sampledFor (o k) domains[k] n)
        ((alookup db.urls domains[k]).getD [])).map Prod.fst).Nodup := by
      rw [markCrawling_keys]
      exact hkeys
    have hlp := alookup_of_mem_nodup hkeys' hp
    by_cases hin : p.1 ∈ db.sampledFor (o k) domains[k] n
    · obtain ⟨s, hls, hpend⟩ := hselmem p.1 hin
      have := markCrawling_lookup_mem hls hin
      rw [hlp] at this
      have hp2' : p.2 = { weight := s.weight, status := UrlStatus.Crawling } := by
        simpa using this
      rw [hp2']
      simp
    · have := @markCrawling_lookup_not_mem
        (db.sampledFor (o k) domains[k] n)
        ((alookup db.urls domains[k]).getD []) p.1 hin
      rw [hlp] at this
      have hnp : p.2.status ≠ UrlStatus.Pending := by
        intro hpend
        have hpmem : (p.1, p.2.weight) ∈
            pendingUrls ((alookup db.urls domains[k]).getD []) :=
          mem_pendingUrls.mpr ⟨p.2, mem_of_alookup this.symm, hpend, rfl⟩
        rw [hone] at hpmem
        simp only [List.mem_singleton, Prod.mk.injEq] at hpmem
        rw [hsel] at hin
        simp [hpmem.1] at hin
      simp [hnp]

/-- Witness for C2 at concrete inputs: the seeded two-domain database,
both domain ids, one URL per job; domain 0 has exactly one pending URL and
it is the one selected. -/
theorem C2_prepare_jobs_witness :
    ∃ jobs db',
      wDb2.prepare_jobs (fun _ _ => 1) [⟨0⟩, ⟨1⟩] 1 = PanicOr.ok (jobs, db') ∧
      jobs.length = 2 ∧
      wDb2.sampledFor (fun _ => 1) ⟨0⟩ 1 = [⟨0⟩] := by
  obtain ⟨jobs, db', h1, h2, h3⟩ :=
    C2_prepare_jobs wDb2 (fun _ _ => 1) [⟨0⟩, ⟨1⟩] 1 0 (by decide) (by decide)
      (by decide) (by decide) (by decide)
  refine ⟨jobs, db', h1, h2, ?_⟩
  have hs := h3.2.2.2.2.2.2.2.2 ⟨0⟩ 0 (by decide) (by decide)
  exact hs.1

/-- C10: `prepare_jobs` implicitly requires every given `DomainId` to have a
`DomainState` entry and a resolvable id (as the ids returned by
`sample_domains` do, in a well-formed database): under that precondition the
call succeeds — its internal unwraps never fire. For a `DomainId` with
neither a domain state nor a url-state entry, the operation panics (modelled
by `PanicOr.panicked` carrying the state at the panic) instead of returning
an error, and it has already inserted an empty url-state map for that
domain (`entry().or_default()`, source line 585) by the time it panics. -/
theorem C10_prepare_jobs_precondition (db : CrawlDb) (o : Nat → Nat → ℚ)
    (domains : List DomainId) (n : Nat) (A : DomainId) :
    (db.wf → (∀ dd ∈ domains, (alookup db.domain_state dd).isSome) →
      (∀ dd ∈ domains, (db.domain_ids.value dd.val).isSome) →
      ∃ jobs db', db.prepare_jobs o domains n = PanicOr.ok (jobs, db')) ∧
    (alookup db.domain_state A = none → alookup db.urls A = none →
      ∃ s, db.prepare_jobs o [A] n = PanicOr.panicked s ∧
        alookup s.urls A = some []) := by
  constructor
  · intro hwf hst hdv
    obtain ⟨jobs, db', heq, _⟩ := prepareJobsGo_ok o n domains 0 db hwf hst hdv
    exact ⟨jobs, db', heq⟩
  · intro hds hurl
    refine ⟨{ db with urls := ainsert db.urls A (markCrawling (db.sampledFor (o 0) A n) ((alookup db.urls A).getD [])) }, ?_, ?_⟩
    · unfold CrawlDb.prepare_jobs prepareJobsGo
      rw [prepareJob_panic db (o 0) A n hds]
    · dsimp only
      rw [alookup_ainsert_self, hurl]
      simp only [Option.getD_none, markCrawling_nil]

/-- Witness for C10 at concrete inputs: the seeded two-domain database
(success on `[⟨0⟩, ⟨1⟩]`, panic on the unknown domain `⟨9⟩`). -/
theorem C10_prepare_jobs_precondition_witness :
    (∃ jobs db',
      wDb2.prepare_jobs (fun _ _ => 1) [⟨0⟩, ⟨1⟩] 1 = PanicOr.ok (jobs, db')) ∧
    (∃ s, wDb2.prepare_jobs (fun _ _ => 1) [⟨9⟩] 1 = PanicOr.panicked s ∧
      alookup s.urls ⟨9⟩ = some []) := by
  have h := C10_prepare_jobs_precondition wDb2 (fun _ _ => 1) [⟨0⟩, ⟨1⟩] 1 ⟨9⟩
  exact ⟨h.1 (by decide) (by decide) (by decide), h.2 (by decide) (by decide)⟩
